import Mathlib

/-
Verification of the archival-scissors Merkle-Patricia multiproof engine.

Shallow embedding of the Rust sources:
  crates/multiproof/src/proof.rs   (MultiProof store, traversal, mutation)
  crates/inventory/src/oracle.rs   (oracle construction helpers)
  crates/inventory/src/transferrable.rs and crates/types/src/state.rs
                                   (transferable parcel)

Machine bytes are modelled as Nat values (expected range 0..255); 32-byte
hashes are byte lists.  The keccak256 function comes from an external crate
and is a parameter of every definition that hashes.  HashMap<H256, Vec<u8>>
is modelled extensionally as a function from hashes to optional byte lists.
RLP encoding and decoding of lists of byte strings (the external rlp crate
functions used by proof.rs) are implemented below following the RLP rules.
Rust panics (todo!) are modelled by the ModifyError.notImplemented error.
-/

namespace Archors

/-- Byte string: list of byte values. -/
abbrev Bytes := List Nat

/-- 32-byte hash, as a byte list. -/
abbrev H256 := List Nat

/-- The all-zero 32-byte hash, H256::default() of the ethers crate. -/
def zeroH : H256 := List.replicate 32 0

/-! ## Nibble paths

Modelled from the spec: the NibblePath type and its operations live in
crates/verify/src/path.rs, which is not part of the excerpted sources; only
its interface is visible from proof.rs.  Spec section 4.A describes the
operations: a cursor over the 64 nibbles of a 32-byte key, a
match-or-mismatch classifier over hex-prefix encoded sub-paths, hex-prefix
encoding and decoding with the standard two-bit flag. -/

/-- Expand bytes into nibbles (each byte gives high then low nibble). -/
def bytesToNibbles (b : Bytes) : List Nat :=
  b.flatMap (fun x => [x / 16 % 16, x % 16])

/-- Modelled from the spec: errors of the path component in
crates/verify/src/path.rs. -/
inductive PathError
  | invalidPrefix
  | pathExhausted
  | subPathTooLong
  | indexOutOfRange
deriving DecidableEq, Repr

/-- Classification of a node sub-path against the remaining traversal. -/
inductive PathNature
  | SubPathMatches
  | SubPathDiverges (i : Nat)
  | FullPathMatches
  | FullPathDiverges (i : Nat)
deriving DecidableEq, Repr

/-- Target kind for hex-prefix encoding. -/
inductive TargetNodeEncoding
  | extension
  | leaf
deriving DecidableEq, Repr

/-- Hex-prefix flag of the first byte of an encoded sub-path. -/
inductive PrefixEncoding
  | ExtensionEven
  | ExtensionOdd (n : Nat)
  | LeafEven
  | LeafOdd (n : Nat)
deriving DecidableEq, Repr

/-- Modelled from the spec: PrefixEncoding::try_from on the first byte of a
hex-prefix encoded path: 0x0_ extension even, 0x1_ extension odd, 0x2_ leaf
even, 0x3_ leaf odd; anything else is invalid. -/
def PrefixEncoding.tryFrom (b : Nat) : Except PathError PrefixEncoding :=
  if b = 0x00 then .ok .ExtensionEven
  else if b / 16 = 1 then .ok (.ExtensionOdd (b % 16))
  else if b = 0x20 then .ok .LeafEven
  else if b / 16 = 3 then .ok (.LeafOdd (b % 16))
  else .error .invalidPrefix

/-- Modelled from the spec: decode a hex-prefix encoded byte string into its
nibble sequence (dropping the flag). -/
def prefixedBytesToNibbles (b : Bytes) : Except PathError (List Nat) :=
  match b with
  | [] => .error .invalidPrefix
  | flag :: rest =>
    match PrefixEncoding.tryFrom flag with
    | .error e => .error e
    | .ok .ExtensionEven => .ok (bytesToNibbles rest)
    | .ok (.ExtensionOdd n) => .ok (n :: bytesToNibbles rest)
    | .ok .LeafEven => .ok (bytesToNibbles rest)
    | .ok (.LeafOdd n) => .ok (n :: bytesToNibbles rest)

/-- Pack an even-length nibble list into bytes (two nibbles per byte). -/
def nibblePairs : List Nat → Bytes
  | a :: b :: rest => (a * 16 + b) :: nibblePairs rest
  | _ => []

/-- Even-length flag byte for a target node kind. -/
def evenFlag : TargetNodeEncoding → Nat
  | .extension => 0x00
  | .leaf => 0x20

/-- Odd-length flag nibble for a target node kind. -/
def oddFlag : TargetNodeEncoding → Nat
  | .extension => 0x1
  | .leaf => 0x3

/-- Modelled from the spec: hex-prefix encode a nibble sequence for a leaf or
extension node. -/
def nibblesToPrefixedBytes (ns : List Nat) (kind : TargetNodeEncoding) : Bytes :=
  if ns.length % 2 = 0 then evenFlag kind :: nibblePairs ns
  else
    match ns with
    | [] => [evenFlag kind]
    | n :: rest => (oddFlag kind * 16 + n) :: nibblePairs rest

/-- Cursor over the nibbles of a traversal key. -/
structure NibblePath where
  nibbles : List Nat
  visitingIndex : Nat
deriving DecidableEq, Repr

/-- Modelled from the spec: NibblePath::init over a 32-byte key. -/
def NibblePath.init (path : Bytes) : NibblePath :=
  { nibbles := bytesToNibbles path, visitingIndex := 0 }

/-- Modelled from the spec: visit the next nibble, advancing the cursor;
fails when the path is exhausted. -/
def NibblePath.visitPathNibble (t : NibblePath) : Except PathError (Nat × NibblePath) :=
  match t.nibbles.get? t.visitingIndex with
  | some n => .ok (n, { t with visitingIndex := t.visitingIndex + 1 })
  | none => .error .pathExhausted

/-- Modelled from the spec: random nibble read at an absolute index. -/
def NibblePath.nibbleAtIndex (t : NibblePath) (i : Nat) : Except PathError Nat :=
  match t.nibbles.get? i with
  | some n => .ok n
  | none => .error .indexOutOfRange

/-- First offset at which the two lists differ (none when the first list is a
leading part of the second). -/
def firstDiff : List Nat → List Nat → Option Nat
  | [], _ => none
  | _ :: _, [] => none
  | x :: xs, y :: ys =>
    if x = y then (firstDiff xs ys).map (· + 1) else some 0

/-- Modelled from the spec: classify a hex-prefix encoded sub-path against
the remaining nibbles from the cursor.  Sub means the node path is shorter
than the remaining traversal, Full means it reaches exactly to the end of
the key; a divergence index is the absolute nibble index of the first
mismatch. -/
def NibblePath.matchOrMismatch (t : NibblePath) (prefixBytes : Bytes) :
    Except PathError PathNature :=
  match prefixedBytesToNibbles prefixBytes with
  | .error e => .error e
  | .ok sub =>
    let remaining := t.nibbles.drop t.visitingIndex
    if sub.length > remaining.length then .error .subPathTooLong
    else
      match firstDiff sub remaining with
      | none =>
        if sub.length = remaining.length then .ok .FullPathMatches
        else .ok .SubPathMatches
      | some j =>
        if sub.length = remaining.length then .ok (.FullPathDiverges (t.visitingIndex + j))
        else .ok (.SubPathDiverges (t.visitingIndex + j))

/-- Modelled from the spec: advance the cursor past a matching extension
sub-path. -/
def NibblePath.skipExtensionNodeNibbles (t : NibblePath) (prefixBytes : Bytes) :
    Except PathError NibblePath :=
  match prefixedBytesToNibbles prefixBytes with
  | .error e => .error e
  | .ok sub => .ok { t with visitingIndex := t.visitingIndex + sub.length }

/-- Modelled from the spec: hex-prefix encode the nibble range lo..=hi of the
key for a given target node kind (range may be empty when lo = hi + 1). -/
def NibblePath.getEncodedPath (t : NibblePath) (kind : TargetNodeEncoding)
    (lo hi : Nat) : Bytes :=
  nibblesToPrefixedBytes ((t.nibbles.drop lo).take (hi + 1 - lo)) kind

/-! ## RLP encoding of node item lists

The external rlp crate functions used by proof.rs: Node::to_rlp_list appends
each item as an RLP byte string inside an RLP list, and rlp::decode_list
parses a node back into its items.  Implemented from the RLP rules. -/

/-- Minimal big-endian byte representation, fuel-driven so that it reduces
by iota (the fuel bounds the number of produced bytes). -/
def beBytesAux : Nat → Nat → Bytes
  | 0, _ => []
  | _, 0 => []
  | fuel + 1, n => beBytesAux fuel (n / 256) ++ [n % 256]

/-- Minimal big-endian byte representation of a Nat (empty for zero). -/
def beBytes (n : Nat) : Bytes := beBytesAux n n

/-- Value of a big-endian byte string. -/
def beVal (b : Bytes) : Nat := b.foldl (fun acc x => acc * 256 + x) 0

/-- RLP encoding of one byte string. -/
def rlpEncodeBytes (b : Bytes) : Bytes :=
  if b.length = 1 ∧ b.headD 0 < 0x80 then b
  else if b.length ≤ 55 then (0x80 + b.length) :: b
  else (0xb7 + (beBytes b.length).length) :: (beBytes b.length ++ b)

/-- Node::to_rlp_list from proof.rs: RLP list whose payload is the
concatenation of the RLP-encoded items. -/
def to_rlp_list (items : List Bytes) : Bytes :=
  let payload := (items.map rlpEncodeBytes).flatten
  if payload.length ≤ 55 then (0xc0 + payload.length) :: payload
  else (0xf7 + (beBytes payload.length).length) :: (beBytes payload.length ++ payload)

/-- Parse one RLP byte-string item from the front of the input. -/
def rlpDecodeItem : Bytes → Option (Bytes × Bytes)
  | [] => none
  | x :: rest =>
    if x < 0x80 then some ([x], rest)
    else if x ≤ 0xb7 then
      let len := x - 0x80
      if rest.length < len then none else some (rest.take len, rest.drop len)
    else if x ≤ 0xbf then
      let lenlen := x - 0xb7
      if rest.length < lenlen then none
      else
        let len := beVal (rest.take lenlen)
        let r2 := rest.drop lenlen
        if r2.length < len then none else some (r2.take len, r2.drop len)
    else none

/-- Parse a sequence of RLP byte-string items exhausting the input. -/
def rlpDecodeItems (fuel : Nat) (b : Bytes) : Option (List Bytes) :=
  match fuel, b with
  | _, [] => some []
  | 0, _ :: _ => none
  | fuel + 1, b =>
    match rlpDecodeItem b with
    | none => none
    | some (item, rest) => (rlpDecodeItems fuel rest).map (item :: ·)

/-- The rlp crate decode_list over a node: parse the list header and its
byte-string items.  Malformed input yields the empty item list (the Rust
call would panic there; every claim below only exercises decodable nodes). -/
def decode_list (b : Bytes) : List Bytes :=
  match b with
  | [] => []
  | x :: rest =>
    if x < 0xc0 then []
    else if x ≤ 0xf7 then
      let len := x - 0xc0
      if rest.length = len then (rlpDecodeItems len rest).getD [] else []
    else
      let lenlen := x - 0xf7
      if rest.length < lenlen then []
      else
        let len := beVal (rest.take lenlen)
        let payload := rest.drop lenlen
        if payload.length = len then (rlpDecodeItems len payload).getD [] else []

/-! ## Errors, node model and the multiproof store (proof.rs) -/

/-- ModifyError from proof.rs.  The notImplemented constructor stands for the
panics of the unfinished branches (the todo macro calls) of the source. -/
inductive ModifyError
  | AbsentOnlyChild
  | BranchTooShort
  | LeafHasNoFinalPath
  | NoVisitedNodes
  | NoVisitedNode
  | NoNodeForHash
  | ExtensionHasNoPath
  | NodeHasNoItems
  | NoItemInBranch
  | PathErr (e : PathError)
  | PathEndedAtBranch
  | NodePathTooShort
  | TooManyBranchItems
  | BranchItemInvalidLength
  | notImplemented
deriving DecidableEq, Repr

/-- ProofError from proof.rs.  The hex string rendering of hashes in
ProofRootMismatch and NoNodeForHash is dropped: the raw hashes are carried. -/
inductive ProofError
  | BranchItemMissing
  | ExtensionHasNoItems
  | ExtensionHasNoNextNode
  | ProofRootMismatch (expected computed : H256) (node : Bytes)
  | NodeEmpty
  | NoEncoding
  | NoNodeForHash (h : H256)
  | PathErr (e : PathError)
  | NodeHasInvalidItemCount (n : Nat)
  | LeafHasNoFinalPath
  | InclusionRequired
  | ExclusionRequired
  | LeafPathIncomplete
  | FinalExtension
  | LeafHasNoData
  | IncorrectLeafData
  | ModifyErr (e : ModifyError)
deriving DecidableEq, Repr

/-- NodeKind from proof.rs. -/
inductive NodeKind
  | Branch
  | Extension
  | Leaf
deriving DecidableEq, Repr

/-- NodeKind::deduce from proof.rs: 17 items is a branch, 2 items is a leaf
or extension by the hex-prefix flag of the first item, other counts are
invalid. -/
def NodeKind.deduce (node : List Bytes) : Except ProofError NodeKind :=
  if node.length = 17 then .ok .Branch
  else if node.length = 2 then
    match node.head? with
    | none => .error .NodeEmpty
    | some partialPath =>
      match partialPath.head? with
      | none => .error .NoEncoding
      | some encoding =>
        match PrefixEncoding.tryFrom encoding with
        | .error e => .error (.PathErr e)
        | .ok .ExtensionEven => .ok .Extension
        | .ok (.ExtensionOdd _) => .ok .Extension
        | .ok .LeafEven => .ok .Leaf
        | .ok (.LeafOdd _) => .ok .Leaf
  else .error (.NodeHasInvalidItemCount node.length)

/-- Node::try_from for Vec<Vec<u8>> in proof.rs: at most 17 items.  The Item
newtype wrapper of the source is dropped; a node is its item list. -/
def Node.tryFrom (value : List Bytes) : Except ModifyError (List Bytes) :=
  if value.length > 17 then .error .TooManyBranchItems else .ok value

/-- VisitedNode from proof.rs: trail entry of the traversal. -/
structure VisitedNode where
  kind : NodeKind
  nodeHash : H256
  itemIndex : Nat
  traversalRecord : NibblePath
deriving DecidableEq, Repr

/-- Intent from proof.rs. -/
inductive Intent
  | Modify (v : Bytes)
  | Remove
  | VerifyInclusion (v : Bytes)
  | VerifyExclusion
deriving DecidableEq, Repr

/-- Change from proof.rs. -/
inductive Change
  | BranchExclusionToInclusion (v : Bytes)
  | ExtensionExclusionToInclusion (newValue : Bytes) (divergentNibbleIndex : Nat)
  | LeafExclusionToInclusion (newValue : Bytes) (divergentNibbleIndex : Nat)
  | LeafInclusionModify (v : Bytes)
  | LeafInclusionToExclusion
deriving DecidableEq, Repr

/-- The node map of a MultiProof, modelled extensionally. -/
def NodeMap := H256 → Option Bytes

/-- Insert a binding (HashMap::insert). -/
def mapInsert (m : NodeMap) (k : H256) (v : Bytes) : NodeMap :=
  fun h => if h = k then some v else m h

/-- Remove a binding (HashMap::remove). -/
def mapRemove (m : NodeMap) (k : H256) : NodeMap :=
  fun h => if h = k then none else m h

/-- MultiProof from proof.rs: content-addressed node map plus current root. -/
structure MultiProof where
  data : NodeMap
  root : H256

/-- MultiProof::init. -/
def MultiProof.init (root : H256) : MultiProof :=
  { data := fun _ => none, root := root }

/-- Account from crates/verify/src/eip1186.rs, used by is_empty_value.  Its
derived RLP encoding is the 4-item list [nonce, balance, storage_hash,
code_hash]. -/
structure Account where
  nonce : Nat
  balance : Nat
  storage_hash : H256
  code_hash : H256
deriving DecidableEq, Repr

/-- Derived RLP encoding of an Account (integers as minimal big-endian byte
strings, hashes as 32-byte strings). -/
def Account.rlpBytes (a : Account) : Bytes :=
  to_rlp_list [beBytes a.nonce, beBytes a.balance, a.storage_hash, a.code_hash]

/-- Account::default(). -/
def Account.default : Account :=
  { nonce := 0, balance := 0, storage_hash := zeroH, code_hash := zeroH }

/-- is_empty_value from proof.rs: the RLP of the default account or the RLP
of U256 zero. -/
def is_empty_value (rlp_value : Bytes) : Bool :=
  if rlp_value = Account.default.rlpBytes then true
  else if rlp_value = rlpEncodeBytes (beBytes 0) then true
  else false

/-! ## Mutation engine (proof.rs)

Every function threads the store explicitly and returns the store next to
the result, mirroring the &mut self methods of the source: when an error is
returned the store keeps any mutations made before the failure. -/

/-- MultiProof::update_node_with_child_hash from proof.rs: re-encode a
visited node with a fresh child hash at the followed position; the branch
arm counts children and the source leaves the single-child collapse
unfinished (todo), modelled as notImplemented. -/
def update_node_with_child_hash (keccak : Bytes → H256) (visited : VisitedNode)
    (childHash : Bytes) (mp : MultiProof) : Except ModifyError H256 × MultiProof :=
  match mp.data visited.nodeHash with
  | none => (.error .NoNodeForHash, mp)
  | some outdatedRlp =>
    let mp1 : MultiProof := { mp with data := mapRemove mp.data visited.nodeHash }
    let outdatedNode := decode_list outdatedRlp
    let updatedNodeResult : Except ModifyError (List Bytes) :=
      match visited.kind with
      | .Branch =>
        let pairs := outdatedNode.enum
        let updated := pairs.map (fun p => if p.1 = visited.itemIndex then childHash else p.2)
        let childCount : Nat := pairs.foldl
          (fun acc p => if p.1 = visited.itemIndex then acc + 1
            else if p.2.isEmpty then acc else acc + 1) 0
        if childCount = 1 ∧ childHash ≠ zeroH then .error .notImplemented
        else .ok updated
      | .Extension =>
        match outdatedNode.head? with
        | none => .error .ExtensionHasNoPath
        | some path => Node.tryFrom [path, childHash]
      | .Leaf => .error .notImplemented
    match updatedNodeResult with
    | .error e => (.error e, mp1)
    | .ok updatedNode =>
      let updatedRlp := to_rlp_list updatedNode
      let updatedHash := keccak updatedRlp
      (.ok updatedHash, { mp1 with data := mapInsert mp1.data updatedHash updatedRlp })

/-- The shared rehash-upward suffix of apply_changes: fold
update_node_with_child_hash over a trail segment, leaf end first. -/
def update_chain (keccak : Bytes → H256) :
    List VisitedNode → H256 → MultiProof → Except ModifyError H256 × MultiProof
  | [], h, mp => (.ok h, mp)
  | n :: rest, h, mp =>
    match update_node_with_child_hash keccak n h mp with
    | (.error e, mp2) => (.error e, mp2)
    | (.ok h2, mp2) => update_chain keccak rest h2 mp2

/-- MultiProof::add_branch_for_new_leaf from proof.rs: turn an extension or
leaf exclusion proof into an inclusion proof by adding a new leaf under a
new branch, with an optional common extension above it. -/
def add_branch_for_new_leaf (keccak : Bytes → H256) (oldNode : List Bytes)
    (lastVisited : VisitedNode) (divergentNibbleIndex : Nat)
    (oldNodeKind : TargetNodeEncoding) (newLeafValue : Bytes) (mp : MultiProof) :
    Except ModifyError H256 × MultiProof :=
  let traversal := lastVisited.traversalRecord
  let newLeafPath := traversal.getEncodedPath .leaf (divergentNibbleIndex + 1) 63
  match Node.tryFrom [newLeafPath, newLeafValue] with
  | .error e => (.error e, mp)
  | .ok leaf =>
    let leafRlp := to_rlp_list leaf
    let leafHash := keccak leafRlp
    let mp1 : MultiProof := { mp with data := mapInsert mp.data leafHash leafRlp }
    let numCommon := divergentNibbleIndex - traversal.visitingIndex
    match oldNode.head? with
    | none => (.error .NodeHasNoItems, mp1)
    | some oldNodePath =>
      match prefixedBytesToNibbles oldNodePath with
      | .error e => (.error (.PathErr e), mp1)
      | .ok oldNodeNibbles =>
        let commonNibbles := oldNodeNibbles.take numCommon
        let divergentNibbles := oldNodeNibbles.drop numCommon
        match divergentNibbles with
        | [] => (.error .NodePathTooShort, mp1)
        | updatedNodeIndexInBranch :: updatedNodeNibbles =>
          let updatedPath := nibblesToPrefixedBytes updatedNodeNibbles oldNodeKind
          match Node.tryFrom (oldNode.set 0 updatedPath) with
          | .error e => (.error e, mp1)
          | .ok updNode =>
            let updatedNodeRlp := to_rlp_list updNode
            let updatedNodeHash := keccak updatedNodeRlp
            let mp2 : MultiProof :=
              { mp1 with data := mapInsert mp1.data updatedNodeHash updatedNodeRlp }
            if updatedNodeIndexInBranch < 17 then
              let nodeItems1 :=
                (List.replicate 17 ([] : Bytes)).set updatedNodeIndexInBranch updatedNodeHash
              match traversal.nibbleAtIndex divergentNibbleIndex with
              | .error e => (.error (.PathErr e), mp2)
              | .ok leafIndex =>
                if leafIndex < 17 then
                  let nodeItems2 := nodeItems1.set leafIndex leafHash
                  match Node.tryFrom nodeItems2 with
                  | .error e => (.error e, mp2)
                  | .ok branchNode =>
                    let branchRlp := to_rlp_list branchNode
                    let branchHash := keccak branchRlp
                    let mp3 : MultiProof :=
                      { mp2 with data := mapInsert mp2.data branchHash branchRlp }
                    if commonNibbles.isEmpty then (.ok branchHash, mp3)
                    else
                      let commonExtensionPath :=
                        nibblesToPrefixedBytes commonNibbles .extension
                      match Node.tryFrom [commonExtensionPath, branchHash] with
                      | .error e => (.error e, mp3)
                      | .ok commonExtensionNode =>
                        let commonExtension := to_rlp_list commonExtensionNode
                        let commonExtensionHash := keccak commonExtension
                        (.ok commonExtensionHash,
                          { mp3 with data :=
                              mapInsert mp3.data commonExtensionHash commonExtension })
                else (.error .BranchTooShort, mp2)
            else (.error .BranchTooShort, mp2)

/-- MultiProof::resolve_child_and_grandparent_paths from proof.rs: the
source resolves the grandparent then unconditionally reaches an unfinished
branch (every arm after the child lookup is todo), modelled as
notImplemented after the grandparent lookup. -/
def resolve_child_and_grandparent_paths (onlyChildHash : Bytes)
    (onlyChildNibble : Nat) (grandparentHash : H256) (mp : MultiProof) :
    Except ModifyError H256 × MultiProof :=
  match mp.data grandparentHash with
  | none => (.error .NoNodeForHash, mp)
  | some _ =>
    let _ := onlyChildHash
    let _ := onlyChildNibble
    (.error .notImplemented, mp)

/-- MultiProof::process_child_removal from proof.rs.  The loop body of the
source runs at most once (every arm returns or panics), so it is modelled as
a single pass; unfinished arms are notImplemented. -/
def process_child_removal (keccak : Bytes → H256) (visitRecord : List VisitedNode)
    (visitIndex : Nat) (mp : MultiProof) :
    Except ModifyError (H256 × Nat) × MultiProof :=
  if visitIndex = 0 then (.error .notImplemented, mp)
  else
    match visitRecord.get? visitIndex with
    | none => (.error .NoVisitedNode, mp)
    | some visited =>
      match mp.data visited.nodeHash with
      | none => (.error .NoNodeForHash, mp)
      | some outdatedRlp =>
        let mp1 : MultiProof := { mp with data := mapRemove mp.data visited.nodeHash }
        let outdatedNode := decode_list outdatedRlp
        match visited.kind with
        | .Branch =>
          let pairs := outdatedNode.enum
          let updated := pairs.map (fun p => if p.1 = visited.itemIndex then [] else p.2)
          let itemCount : Nat := pairs.foldl
            (fun acc p => if p.1 = visited.itemIndex then acc
              else if p.2.isEmpty then acc else acc + 1) 0
          let nonEmptyChildIndex : Nat := pairs.foldl
            (fun acc p => if p.1 = visited.itemIndex then acc
              else if p.2.isEmpty then acc else p.1) 0
          if itemCount = 0 then (.error .notImplemented, mp1)
          else if itemCount = 1 then
            match visitRecord.get? (visitIndex - 1) with
            | none => (.error .NoVisitedNode, mp1)
            | some visitedGrandparent =>
              match updated.get? nonEmptyChildIndex with
              | none => (.error .AbsentOnlyChild, mp1)
              | some onlyChildHash =>
                match resolve_child_and_grandparent_paths onlyChildHash
                    nonEmptyChildIndex visitedGrandparent.nodeHash mp1 with
                | (.error e, mp2) => (.error e, mp2)
                | (.ok _, mp2) => (.error .notImplemented, mp2)
          else
            let updatedRlp := to_rlp_list updated
            let updatedNodeHash := keccak updatedRlp
            (.ok (updatedNodeHash, visitIndex),
              { mp1 with data := mapInsert mp1.data updatedNodeHash updatedRlp })
        | .Extension =>
          match outdatedNode.head? with
          | none => (.error .ExtensionHasNoPath, mp1)
          | some _ => (.error .notImplemented, mp1)
        | .Leaf => (.error .notImplemented, mp1)

/-- MultiProof::apply_changes from proof.rs: remove the terminal node, apply
the structural change, then rehash the remaining trail up to the root. -/
def apply_changes (keccak : Bytes → H256) (change : Change)
    (visited : List VisitedNode) (mp : MultiProof) :
    Except ModifyError Unit × MultiProof :=
  match visited.getLast? with
  | none => (.error .NoVisitedNodes, mp)
  | some lastVisited =>
    let oldTerminalHash := lastVisited.nodeHash
    match mp.data oldTerminalHash with
    | none => (.error .NoNodeForHash, mp)
    | some oldNodeRlp =>
      let mp1 : MultiProof := { mp with data := mapRemove mp.data oldTerminalHash }
      let oldNode := decode_list oldNodeRlp
      match change with
      | .BranchExclusionToInclusion newLeafRlpValue =>
        if is_empty_value newLeafRlpValue then
          (.ok (), { mp1 with data := mapInsert mp1.data oldTerminalHash oldNodeRlp })
        else
          let traversal := lastVisited.traversalRecord
          match traversal.nibbleAtIndex traversal.visitingIndex with
          | .error e => (.error (.PathErr e), mp1)
          | .ok branchItemIndex =>
            let leafPathStart := traversal.visitingIndex + 1
            let leafPath := traversal.getEncodedPath .leaf leafPathStart 63
            match Node.tryFrom [leafPath, newLeafRlpValue] with
            | .error e => (.error e, mp1)
            | .ok leafNode =>
              let leafNodeRlp := to_rlp_list leafNode
              let leafNodeHash := keccak leafNodeRlp
              let mp2 : MultiProof :=
                { mp1 with data := mapInsert mp1.data leafNodeHash leafNodeRlp }
              if branchItemIndex < oldNode.length then
                match Node.tryFrom (oldNode.set branchItemIndex leafNodeHash) with
                | .error e => (.error e, mp2)
                | .ok updatedBranchNode =>
                  let updatedRlpNode := to_rlp_list updatedBranchNode
                  let updatedHash := keccak updatedRlpNode
                  let mp3 : MultiProof :=
                    { mp2 with data := mapInsert mp2.data updatedHash updatedRlpNode }
                  match update_chain keccak (visited.reverse.drop 1) updatedHash mp3 with
                  | (.error e, mp4) => (.error e, mp4)
                  | (.ok finalHash, mp4) => (.ok (), { mp4 with root := finalHash })
              else (.error .BranchTooShort, mp2)
      | .ExtensionExclusionToInclusion newValue divergentNibbleIndex =>
        if is_empty_value newValue then
          (.ok (), { mp1 with data := mapInsert mp1.data oldTerminalHash oldNodeRlp })
        else
          match add_branch_for_new_leaf keccak oldNode lastVisited
              divergentNibbleIndex .extension newValue mp1 with
          | (.error e, mp2) => (.error e, mp2)
          | (.ok updatedHash, mp2) =>
            match update_chain keccak (visited.reverse.drop 1) updatedHash mp2 with
            | (.error e, mp3) => (.error e, mp3)
            | (.ok finalHash, mp3) => (.ok (), { mp3 with root := finalHash })
      | .LeafExclusionToInclusion newValue divergentNibbleIndex =>
        if is_empty_value newValue then
          (.ok (), { mp1 with data := mapInsert mp1.data oldTerminalHash oldNodeRlp })
        else
          match add_branch_for_new_leaf keccak oldNode lastVisited
              divergentNibbleIndex .leaf newValue mp1 with
          | (.error e, mp2) => (.error e, mp2)
          | (.ok updatedHash, mp2) =>
            match update_chain keccak (visited.reverse.drop 1) updatedHash mp2 with
            | (.error e, mp3) => (.error e, mp3)
            | (.ok finalHash, mp3) => (.ok (), { mp3 with root := finalHash })
      | .LeafInclusionModify newLeafRlpValue =>
        match oldNode.head? with
        | none => (.error .LeafHasNoFinalPath, mp1)
        | some path =>
          match Node.tryFrom [path, newLeafRlpValue] with
          | .error e => (.error e, mp1)
          | .ok newLeafNode =>
            let newLeafRlp := to_rlp_list newLeafNode
            let updatedHash := keccak newLeafRlp
            let mp2 : MultiProof :=
              { mp1 with data := mapInsert mp1.data updatedHash newLeafRlp }
            match update_chain keccak (visited.reverse.drop 1) updatedHash mp2 with
            | (.error e, mp3) => (.error e, mp3)
            | (.ok finalHash, mp3) => (.ok (), { mp3 with root := finalHash })
      | .LeafInclusionToExclusion =>
        match process_child_removal keccak visited (visited.length - 1) mp1 with
        | (.error e, mp2) => (.error e, mp2)
        | (.ok (highestHash, nodesProcessed), mp2) =>
          match update_chain keccak (visited.reverse.drop nodesProcessed) highestHash mp2 with
          | (.error e, mp3) => (.error e, mp3)
          | (.ok finalHash, mp3) => (.ok (), { mp3 with root := finalHash })

/-- MultiProof::insert_proof from proof.rs, inner loop carrying the node
index. -/
def insert_proof_from (keccak : Bytes → H256) :
    Nat → List Bytes → MultiProof → Except ProofError Unit × MultiProof
  | _, [], mp => (.ok (), mp)
  | index, node :: rest, mp =>
    let hash := keccak node
    let mp1 : MultiProof :=
      if index = 0 ∧ mp.root = zeroH then { mp with root := hash } else mp
    if index = 0 ∧ hash ≠ mp1.root then
      (.error (.ProofRootMismatch mp1.root hash node), mp1)
    else
      insert_proof_from keccak (index + 1) rest
        { mp1 with data := mapInsert mp1.data hash node }

/-- MultiProof::insert_proof from proof.rs: insert every node of a single
proof keyed by its keccak256 hash; adopt or check the root on the first
node. -/
def insert_proof (keccak : Bytes → H256) (proof : List Bytes) (mp : MultiProof) :
    Except ProofError Unit × MultiProof :=
  insert_proof_from keccak 0 proof mp

/-- MultiProof::traverse from proof.rs, the loop body; fuel models the
unbounded source loop (a none result is a non-terminating walk).  The store
is returned next to the result, mutated exactly as the source mutates
self. -/
def traverseLoop (keccak : Bytes → H256) :
    Nat → MultiProof → NibblePath → H256 → List VisitedNode → Intent →
    Option (Except ProofError Unit × MultiProof)
  | 0, _, _, _, _, _ => none
  | fuel + 1, mp, traversal, nextNodeHash, visitedNodes, intent =>
    match mp.data nextNodeHash with
    | none => some (.error (.NoNodeForHash nextNodeHash), mp)
    | some nextNodeRlp =>
      let nextNode := decode_list nextNodeRlp
      match NodeKind.deduce nextNode with
      | .error e => some (.error e, mp)
      | .ok .Branch =>
        let traversalRecord := traversal
        match traversal.visitPathNibble with
        | .error e => some (.error (.PathErr e), mp)
        | .ok (itemIndex, traversal2) =>
          match nextNode.get? itemIndex with
          | none => some (.error .BranchItemMissing, mp)
          | some item =>
            let visited2 := visitedNodes ++
              [{ kind := .Branch, nodeHash := nextNodeHash, itemIndex := itemIndex,
                 traversalRecord := traversalRecord }]
            if item.isEmpty then
              match intent with
              | .Modify newRlpValue =>
                some (match apply_changes keccak
                    (.BranchExclusionToInclusion newRlpValue) visited2 mp with
                  | (.ok (), mp2) => (.ok (), mp2)
                  | (.error e, mp2) => (.error (.ModifyErr e), mp2))
              | .Remove => some (.ok (), mp)
              | .VerifyExclusion => some (.ok (), mp)
              | .VerifyInclusion _ => some (.error .InclusionRequired, mp)
            else
              traverseLoop keccak fuel mp traversal2 item visited2 intent
      | .ok .Extension =>
        let traversalRecord := traversal
        match nextNode.head? with
        | none => some (.error .ExtensionHasNoItems, mp)
        | some extension =>
          let visited2 := visitedNodes ++
            [{ kind := .Extension, nodeHash := nextNodeHash, itemIndex := 1,
               traversalRecord := traversalRecord }]
          match traversal.matchOrMismatch extension with
          | .error e => some (.error (.PathErr e), mp)
          | .ok .SubPathMatches =>
            match nextNode.get? 1 with
            | none => some (.error .ExtensionHasNoNextNode, mp)
            | some item =>
              match traversal.skipExtensionNodeNibbles extension with
              | .error e => some (.error (.PathErr e), mp)
              | .ok traversal2 => traverseLoop keccak fuel mp traversal2 item visited2 intent
          | .ok (.SubPathDiverges divergentNibbleIndex) =>
            match intent with
            | .Modify newValue =>
              some (match apply_changes keccak
                  (.ExtensionExclusionToInclusion newValue divergentNibbleIndex)
                  visited2 mp with
                | (.ok (), mp2) => (.ok (), mp2)
                | (.error e, mp2) => (.error (.ModifyErr e), mp2))
            | .Remove => some (.ok (), mp)
            | .VerifyExclusion => some (.ok (), mp)
            | .VerifyInclusion _ => some (.error .InclusionRequired, mp)
          | .ok .FullPathMatches => some (.error .FinalExtension, mp)
          | .ok (.FullPathDiverges _) => some (.error .FinalExtension, mp)
      | .ok .Leaf =>
        let traversalRecord := traversal
        match nextNode.head? with
        | none => some (.error .LeafHasNoFinalPath, mp)
        | some finalSubpath =>
          let visited2 := visitedNodes ++
            [{ kind := .Leaf, nodeHash := nextNodeHash, itemIndex := 1,
               traversalRecord := traversalRecord }]
          match traversal.matchOrMismatch finalSubpath with
          | .error e => some (.error (.PathErr e), mp)
          | .ok .SubPathMatches => some (.error .LeafPathIncomplete, mp)
          | .ok (.SubPathDiverges _) => some (.error .LeafPathIncomplete, mp)
          | .ok .FullPathMatches =>
            match intent with
            | .Modify newValue =>
              some (match apply_changes keccak (.LeafInclusionModify newValue)
                  visited2 mp with
                | (.ok (), mp2) => (.ok (), mp2)
                | (.error e, mp2) => (.error (.ModifyErr e), mp2))
            | .VerifyExclusion => some (.error .ExclusionRequired, mp)
            | .Remove =>
              some (match apply_changes keccak .LeafInclusionToExclusion visited2 mp with
                | (.ok (), mp2) => (.ok (), mp2)
                | (.error e, mp2) => (.error (.ModifyErr e), mp2))
            | .VerifyInclusion expectedRlpData =>
              match nextNode.get? 1 with
              | none => some (.error .LeafHasNoData, mp)
              | some leafRlpData =>
                if leafRlpData ≠ expectedRlpData then
                  some (.error .IncorrectLeafData, mp)
                else some (.ok (), mp)
          | .ok (.FullPathDiverges divergentNibbleIndex) =>
            match intent with
            | .Modify newRlpValue =>
              some (match apply_changes keccak
                  (.LeafExclusionToInclusion newRlpValue divergentNibbleIndex)
                  visited2 mp with
                | (.ok (), mp2) => (.ok (), mp2)
                | (.error e, mp2) => (.error (.ModifyErr e), mp2))
            | .Remove => some (.ok (), mp)
            | .VerifyExclusion => some (.ok (), mp)
            | .VerifyInclusion _ => some (.error .InclusionRequired, mp)

/-- MultiProof::traverse from proof.rs: walk from the root under an intent;
verification leaves the store as is, Modify and Remove may mutate it. -/
def traverse (keccak : Bytes → H256) (fuel : Nat) (path : Bytes) (intent : Intent)
    (mp : MultiProof) : Option (Except ProofError Unit × MultiProof) :=
  traverseLoop keccak fuel mp (NibblePath.init path) mp.root [] intent

/-! ## Walk analysis

The traversal loop of proof.rs determines a terminus for a path before the
intent plays any role: an empty branch slot, a diverging extension sub-path,
a diverging leaf final path, or a fully matching leaf.  walkAux mirrors the
loop of traverse without an intent and reports the terminus together with
the visited trail; the decomposition theorem below proves that traverse is
walkAux followed by a terminal action chosen by the intent. -/

/-- Terminus of a traversal: the three exclusion shapes and leaf
inclusion (carrying the leaf value item). -/
inductive Terminus
  | branchExclusion
  | extensionExclusion (i : Nat)
  | leafExclusion (i : Nat)
  | leafInclusion (value : Bytes)
deriving DecidableEq, Repr

/-- Whether a terminus is an exclusion terminus. -/
def Terminus.isExclusion : Terminus → Bool
  | .branchExclusion => true
  | .extensionExclusion _ => true
  | .leafExclusion _ => true
  | .leafInclusion _ => false

/-- The intent-free walk underlying traverse: same lookups, same errors,
same visited trail, but stops with a terminus instead of acting. -/
def walkAux :
    Nat → MultiProof → NibblePath → H256 → List VisitedNode →
    Option (Except ProofError (Terminus × List VisitedNode))
  | 0, _, _, _, _ => none
  | fuel + 1, mp, traversal, nextNodeHash, visitedNodes =>
    match mp.data nextNodeHash with
    | none => some (.error (.NoNodeForHash nextNodeHash))
    | some nextNodeRlp =>
      let nextNode := decode_list nextNodeRlp
      match NodeKind.deduce nextNode with
      | .error e => some (.error e)
      | .ok .Branch =>
        let traversalRecord := traversal
        match traversal.visitPathNibble with
        | .error e => some (.error (.PathErr e))
        | .ok (itemIndex, traversal2) =>
          match nextNode.get? itemIndex with
          | none => some (.error .BranchItemMissing)
          | some item =>
            let visited2 := visitedNodes ++
              [{ kind := .Branch, nodeHash := nextNodeHash, itemIndex := itemIndex,
                 traversalRecord := traversalRecord }]
            if item.isEmpty then some (.ok (.branchExclusion, visited2))
            else walkAux fuel mp traversal2 item visited2
      | .ok .Extension =>
        let traversalRecord := traversal
        match nextNode.head? with
        | none => some (.error .ExtensionHasNoItems)
        | some extension =>
          let visited2 := visitedNodes ++
            [{ kind := .Extension, nodeHash := nextNodeHash, itemIndex := 1,
               traversalRecord := traversalRecord }]
          match traversal.matchOrMismatch extension with
          | .error e => some (.error (.PathErr e))
          | .ok .SubPathMatches =>
            match nextNode.get? 1 with
            | none => some (.error .ExtensionHasNoNextNode)
            | some item =>
              match traversal.skipExtensionNodeNibbles extension with
              | .error e => some (.error (.PathErr e))
              | .ok traversal2 => walkAux fuel mp traversal2 item visited2
          | .ok (.SubPathDiverges divergentNibbleIndex) =>
            some (.ok (.extensionExclusion divergentNibbleIndex, visited2))
          | .ok .FullPathMatches => some (.error .FinalExtension)
          | .ok (.FullPathDiverges _) => some (.error .FinalExtension)
      | .ok .Leaf =>
        let traversalRecord := traversal
        match nextNode.head? with
        | none => some (.error .LeafHasNoFinalPath)
        | some finalSubpath =>
          let visited2 := visitedNodes ++
            [{ kind := .Leaf, nodeHash := nextNodeHash, itemIndex := 1,
               traversalRecord := traversalRecord }]
          match traversal.matchOrMismatch finalSubpath with
          | .error e => some (.error (.PathErr e))
          | .ok .SubPathMatches => some (.error .LeafPathIncomplete)
          | .ok (.SubPathDiverges _) => some (.error .LeafPathIncomplete)
          | .ok .FullPathMatches =>
            match nextNode.get? 1 with
            | none => some (.error .LeafHasNoData)
            | some leafRlpData => some (.ok (.leafInclusion leafRlpData, visited2))
          | .ok (.FullPathDiverges divergentNibbleIndex) =>
            some (.ok (.leafExclusion divergentNibbleIndex, visited2))

/-- Walk of a full path from the root. -/
def walk (fuel : Nat) (path : Bytes) (mp : MultiProof) :
    Option (Except ProofError (Terminus × List VisitedNode)) :=
  walkAux fuel mp (NibblePath.init path) mp.root []

/-- Wrap the result of apply_changes the way traverse does (the question
mark operator converting ModifyError into ProofError). -/
def wrapModify : Except ModifyError Unit × MultiProof → Except ProofError Unit × MultiProof
  | (.ok (), mp) => (.ok (), mp)
  | (.error e, mp) => (.error (.ModifyErr e), mp)

/-- What traverse does once the walk has reached a terminus, per intent. -/
def terminalAction (keccak : Bytes → H256) (mp : MultiProof) (t : Terminus)
    (visited : List VisitedNode) (intent : Intent) :
    Except ProofError Unit × MultiProof :=
  match t, intent with
  | .branchExclusion, .Modify v =>
    wrapModify (apply_changes keccak (.BranchExclusionToInclusion v) visited mp)
  | .branchExclusion, .Remove => (.ok (), mp)
  | .branchExclusion, .VerifyExclusion => (.ok (), mp)
  | .branchExclusion, .VerifyInclusion _ => (.error .InclusionRequired, mp)
  | .extensionExclusion i, .Modify v =>
    wrapModify (apply_changes keccak (.ExtensionExclusionToInclusion v i) visited mp)
  | .extensionExclusion _, .Remove => (.ok (), mp)
  | .extensionExclusion _, .VerifyExclusion => (.ok (), mp)
  | .extensionExclusion _, .VerifyInclusion _ => (.error .InclusionRequired, mp)
  | .leafExclusion i, .Modify v =>
    wrapModify (apply_changes keccak (.LeafExclusionToInclusion v i) visited mp)
  | .leafExclusion _, .Remove => (.ok (), mp)
  | .leafExclusion _, .VerifyExclusion => (.ok (), mp)
  | .leafExclusion _, .VerifyInclusion _ => (.error .InclusionRequired, mp)
  | .leafInclusion _, .Modify v =>
    wrapModify (apply_changes keccak (.LeafInclusionModify v) visited mp)
  | .leafInclusion _, .Remove =>
    wrapModify (apply_changes keccak .LeafInclusionToExclusion visited mp)
  | .leafInclusion _, .VerifyExclusion => (.error .ExclusionRequired, mp)
  | .leafInclusion w, .VerifyInclusion v =>
    if w ≠ v then (.error .IncorrectLeafData, mp) else (.ok (), mp)

/-- A node deduced to be a leaf has exactly two items. -/
theorem deduce_leaf_length {node : List Bytes}
    (h : NodeKind.deduce node = .ok .Leaf) : node.length = 2 := by
  unfold NodeKind.deduce at h
  by_cases h17 : node.length = 17
  · simp [h17] at h
  · by_cases h2 : node.length = 2
    · exact h2
    · simp [h17, h2] at h

/-- Decomposition of the traversal loop: it is the intent-free walk followed
by the terminal action of the intent; walk errors surface unchanged with an
untouched store. -/
theorem traverseLoop_eq_walkAux (keccak : Bytes → H256) (fuel : Nat)
    (mp : MultiProof) (traversal : NibblePath) (h : H256) (vs : List VisitedNode)
    (intent : Intent) :
    traverseLoop keccak fuel mp traversal h vs intent =
      (walkAux fuel mp traversal h vs).map (fun r =>
        match r with
        | .error e => (.error e, mp)
        | .ok (t, visited) => terminalAction keccak mp t visited intent) := by
  induction fuel generalizing traversal h vs with
  | zero => rfl
  | succ n ih =>
    rw [traverseLoop, walkAux]
    cases hdata : mp.data h with
    | none => rfl
    | some rlp =>
      simp only
      cases hded : NodeKind.deduce (decode_list rlp) with
      | error e => rfl
      | ok kind =>
        cases kind with
        | Branch =>
          simp only
          cases hvn : traversal.visitPathNibble with
          | error e => rfl
          | ok pr =>
            simp only
            cases hget : (decode_list rlp).get? pr.1 with
            | none => rfl
            | some item =>
              simp only
              by_cases hempty : item.isEmpty
              · simp only [hempty, if_true]
                cases intent <;> rfl
              · simp only [hempty, if_false]
                exact ih _ _ _
        | Extension =>
          simp only
          cases hhead : (decode_list rlp).head? with
          | none => rfl
          | some ext =>
            simp only
            cases hmm : traversal.matchOrMismatch ext with
            | error e => rfl
            | ok nature =>
              cases nature with
              | SubPathMatches =>
                simp only
                cases hget : (decode_list rlp).get? 1 with
                | none => rfl
                | some item =>
                  simp only
                  cases hskip : traversal.skipExtensionNodeNibbles ext with
                  | error e => rfl
                  | ok traversal2 => exact ih _ _ _
              | SubPathDiverges i => cases intent <;> rfl
              | FullPathMatches => rfl
              | FullPathDiverges i => rfl
        | Leaf =>
          simp only
          cases hhead : (decode_list rlp).head? with
          | none => rfl
          | some fsp =>
            simp only
            cases hmm : traversal.matchOrMismatch fsp with
            | error e => rfl
            | ok nature =>
              cases nature with
              | SubPathMatches => rfl
              | SubPathDiverges i => rfl
              | FullPathMatches =>
                simp only
                cases hget : (decode_list rlp).get? 1 with
                | none =>
                  exfalso
                  have hlen := deduce_leaf_length hded
                  have hle := List.get?_eq_none.mp hget
                  omega
                | some dat =>
                  cases intent with
                  | Modify v => rfl
                  | Remove => rfl
                  | VerifyInclusion v =>
                    by_cases hne : dat ≠ v
                    · simp [terminalAction, hne]
                    · simp [terminalAction, hne, not_not.mp hne]
                  | VerifyExclusion => rfl
              | FullPathDiverges i => cases intent <;> rfl

/-- Decomposition of traverse: the walk of the path followed by the terminal
action of the intent. -/
theorem traverse_eq_walk (keccak : Bytes → H256) (fuel : Nat) (path : Bytes)
    (intent : Intent) (mp : MultiProof) :
    traverse keccak fuel path intent mp =
      (walk fuel path mp).map (fun r =>
        match r with
        | .error e => (.error e, mp)
        | .ok (t, visited) => terminalAction keccak mp t visited intent) :=
  traverseLoop_eq_walkAux keccak fuel mp (NibblePath.init path) mp.root [] intent

/-- Traverse at a terminus: rewriting helper combining the decomposition
with a known walk result. -/
theorem traverse_terminus (keccak : Bytes → H256) (fuel : Nat) (p : Bytes)
    (mp : MultiProof) (t : Terminus) (visited : List VisitedNode) (intent : Intent)
    (hwalk : walk fuel p mp = some (.ok (t, visited))) :
    traverse keccak fuel p intent mp = some (terminalAction keccak mp t visited intent) := by
  rw [traverse_eq_walk, hwalk]
  rfl

/-- The last element of an appended singleton. -/
theorem getLast?_append_singleton {α : Type} (l : List α) (x : α) :
    (l ++ [x]).getLast? = some x := by
  simp [List.getLast?_append]

/-- A successful walk ends at a visited node whose hash is bound in the
store (the terminal node was looked up to classify it). -/
theorem walkAux_ok_last (mp : MultiProof) : ∀ (fuel : Nat) (traversal : NibblePath)
    (h : H256) (vs : List VisitedNode) (t : Terminus) (visited : List VisitedNode),
    walkAux fuel mp traversal h vs = some (.ok (t, visited)) →
    ∃ last rlp, visited.getLast? = some last ∧ mp.data last.nodeHash = some rlp := by
  intro fuel
  induction fuel with
  | zero => intro _ _ _ _ _ hx; exact absurd hx (by simp [walkAux])
  | succ n ih =>
    intro traversal h vs t visited hx
    rw [walkAux] at hx
    cases hdata : mp.data h with
    | none => rw [hdata] at hx; simp at hx
    | some rlp =>
      rw [hdata] at hx
      simp only at hx
      cases hded : NodeKind.deduce (decode_list rlp) with
      | error e => rw [hded] at hx; simp at hx
      | ok kind =>
        rw [hded] at hx
        cases kind with
        | Branch =>
          simp only at hx
          cases hvn : traversal.visitPathNibble with
          | error e => rw [hvn] at hx; simp at hx
          | ok pr =>
            rw [hvn] at hx
            simp only at hx
            cases hget : (decode_list rlp).get? pr.1 with
            | none => rw [hget] at hx; simp at hx
            | some item =>
              rw [hget] at hx
              simp only at hx
              by_cases hempty : item.isEmpty
              · rw [if_pos hempty] at hx
                simp only [Option.some.injEq, Except.ok.injEq, Prod.mk.injEq] at hx
                obtain ⟨-, hvis⟩ := hx
                subst hvis
                exact ⟨_, rlp, getLast?_append_singleton _ _, hdata⟩
              · rw [if_neg hempty] at hx
                exact ih _ _ _ _ _ hx
        | Extension =>
          simp only at hx
          cases hhead : (decode_list rlp).head? with
          | none => rw [hhead] at hx; simp at hx
          | some ext =>
            rw [hhead] at hx
            simp only at hx
            cases hmm : traversal.matchOrMismatch ext with
            | error e => rw [hmm] at hx; simp at hx
            | ok nature =>
              rw [hmm] at hx
              cases nature with
              | SubPathMatches =>
                simp only at hx
                cases hget : (decode_list rlp).get? 1 with
                | none => rw [hget] at hx; simp at hx
                | some item =>
                  rw [hget] at hx
                  simp only at hx
                  cases hskip : traversal.skipExtensionNodeNibbles ext with
                  | error e => rw [hskip] at hx; simp at hx
                  | ok traversal2 =>
                    rw [hskip] at hx
                    exact ih _ _ _ _ _ hx
              | SubPathDiverges i =>
                simp only [Option.some.injEq, Except.ok.injEq, Prod.mk.injEq] at hx
                obtain ⟨-, hvis⟩ := hx
                subst hvis
                exact ⟨_, rlp, getLast?_append_singleton _ _, hdata⟩
              | FullPathMatches => simp at hx
              | FullPathDiverges i => simp at hx
        | Leaf =>
          simp only at hx
          cases hhead : (decode_list rlp).head? with
          | none => rw [hhead] at hx; simp at hx
          | some fsp =>
            rw [hhead] at hx
            simp only at hx
            cases hmm : traversal.matchOrMismatch fsp with
            | error e => rw [hmm] at hx; simp at hx
            | ok nature =>
              rw [hmm] at hx
              cases nature with
              | SubPathMatches => simp at hx
              | SubPathDiverges i => simp at hx
              | FullPathMatches =>
                simp only at hx
                cases hget : (decode_list rlp).get? 1 with
                | none => rw [hget] at hx; simp at hx
                | some dat =>
                  rw [hget] at hx
                  simp only [Option.some.injEq, Except.ok.injEq, Prod.mk.injEq] at hx
                  obtain ⟨-, hvis⟩ := hx
                  subst hvis
                  exact ⟨_, rlp, getLast?_append_singleton _ _, hdata⟩
              | FullPathDiverges i =>
                simp only [Option.some.injEq, Except.ok.injEq, Prod.mk.injEq] at hx
                obtain ⟨-, hvis⟩ := hx
                subst hvis
                exact ⟨_, rlp, getLast?_append_singleton _ _, hdata⟩

/-- Re-inserting a mapping that was just removed restores the map
pointwise. -/
theorem mapInsert_mapRemove_self (m : NodeMap) (k : H256) (v : Bytes)
    (hk : m k = some v) (h : H256) : mapInsert (mapRemove m k) k v h = m h := by
  unfold mapInsert mapRemove
  by_cases hh : h = k
  · rw [if_pos hh, hh, hk]
  · rw [if_neg hh, if_neg hh]

/-- Suppressed mutation: apply_changes for a branch-exclusion change with an
empty value puts the removed terminal node back and succeeds. -/
theorem apply_changes_branch_empty (keccak : Bytes → H256) (v : Bytes)
    (visited : List VisitedNode) (mp : MultiProof) (last : VisitedNode) (rlp : Bytes)
    (hv : is_empty_value v = true)
    (hlast : visited.getLast? = some last)
    (hdata : mp.data last.nodeHash = some rlp) :
    apply_changes keccak (.BranchExclusionToInclusion v) visited mp =
      (.ok (), { data := mapInsert (mapRemove mp.data last.nodeHash) last.nodeHash rlp,
                 root := mp.root }) := by
  unfold apply_changes
  rw [hlast]
  simp only
  rw [hdata]
  simp [hv]

/-- Suppressed mutation: apply_changes for an extension-exclusion change
with an empty value puts the removed terminal node back and succeeds. -/
theorem apply_changes_extension_empty (keccak : Bytes → H256) (v : Bytes) (i : Nat)
    (visited : List VisitedNode) (mp : MultiProof) (last : VisitedNode) (rlp : Bytes)
    (hv : is_empty_value v = true)
    (hlast : visited.getLast? = some last)
    (hdata : mp.data last.nodeHash = some rlp) :
    apply_changes keccak (.ExtensionExclusionToInclusion v i) visited mp =
      (.ok (), { data := mapInsert (mapRemove mp.data last.nodeHash) last.nodeHash rlp,
                 root := mp.root }) := by
  unfold apply_changes
  rw [hlast]
  simp only
  rw [hdata]
  simp [hv]

/-- Suppressed mutation: apply_changes for a leaf-exclusion change with an
empty value puts the removed terminal node back and succeeds. -/
theorem apply_changes_leaf_empty (keccak : Bytes → H256) (v : Bytes) (i : Nat)
    (visited : List VisitedNode) (mp : MultiProof) (last : VisitedNode) (rlp : Bytes)
    (hv : is_empty_value v = true)
    (hlast : visited.getLast? = some last)
    (hdata : mp.data last.nodeHash = some rlp) :
    apply_changes keccak (.LeafExclusionToInclusion v i) visited mp =
      (.ok (), { data := mapInsert (mapRemove mp.data last.nodeHash) last.nodeHash rlp,
                 root := mp.root }) := by
  unfold apply_changes
  rw [hlast]
  simp only
  rw [hdata]
  simp [hv]

/-! ## Witness fixtures

A one-node trie: the root node is a leaf whose hex-prefix path covers all 64
nibbles of the zero key.  Traversing the zero key reaches a leaf-inclusion
terminus; traversing a key whose second nibble is 1 reaches a leaf-exclusion
terminus.  The store root is an arbitrary hash (traversal never rehashes),
and kecConst is a concrete stand-in hash function for mutation tests. -/

/-- Fixture: leaf value. -/
def leafValue0 : Bytes := [0x63]

/-- Fixture: hex-prefix encoded 64-nibble zero path (leaf, even). -/
def leafPathBytes0 : Bytes := 0x20 :: List.replicate 32 0

/-- Fixture: RLP of the root leaf node. -/
def rootRlp0 : Bytes := to_rlp_list [leafPathBytes0, leafValue0]

/-- Fixture: hash under which the root node is stored. -/
def rootHash0 : H256 := List.replicate 32 1

/-- Fixture: one-leaf store. -/
def mp0 : MultiProof :=
  { data := fun h => if h = rootHash0 then some rootRlp0 else none, root := rootHash0 }

/-- Fixture: the zero key (fully matches the leaf). -/
def p0 : Bytes := List.replicate 32 0

/-- Fixture: a key diverging from the leaf at nibble index 1. -/
def p1 : Bytes := 1 :: List.replicate 31 0

/-- Fixture: a concrete hash function for mutation tests. -/
def kecConst : Bytes → H256 := fun _ => List.replicate 32 2

/-- Fixture: visited trail entry for the inclusion walk. -/
def vis0 : VisitedNode :=
  { kind := .Leaf, nodeHash := rootHash0, itemIndex := 1, traversalRecord := NibblePath.init p0 }

/-- Fixture: visited trail entry for the exclusion walk. -/
def vis1 : VisitedNode :=
  { kind := .Leaf, nodeHash := rootHash0, itemIndex := 1, traversalRecord := NibblePath.init p1 }

/-- Fixture: the store after modifying the leaf value of mp0 to rlp(0). -/
def mpAfter0 : MultiProof :=
  match traverse kecConst 2 p0 (.Modify (rlpEncodeBytes (beBytes 0))) mp0 with
  | some (_, m) => m
  | none => mp0

/-! ## Claim theorems -/

/-- C1: against a store whose walk of path p ends at a terminus,
VerifyExclusion succeeds exactly at exclusion termini and fails with
ExclusionRequired at a fully matching leaf; VerifyInclusion(v) succeeds
exactly at a fully matching leaf with value v, fails with IncorrectLeafData
at a fully matching leaf with another value and with InclusionRequired at
exclusion termini; and exactly one of VerifyExclusion or VerifyInclusion
(for some v) succeeds. -/
theorem claim_C1_verify_semantics (keccak : Bytes → H256) (fuel : Nat) (p : Bytes)
    (mp : MultiProof) (t : Terminus) (visited : List VisitedNode)
    (hwalk : walk fuel p mp = some (.ok (t, visited))) :
    ((∃ mp2, traverse keccak fuel p .VerifyExclusion mp = some (.ok (), mp2)) ↔
      t.isExclusion = true)
    ∧ (t.isExclusion = true →
        traverse keccak fuel p .VerifyExclusion mp = some (.ok (), mp))
    ∧ (∀ w, t = .leafInclusion w →
        traverse keccak fuel p .VerifyExclusion mp = some (.error .ExclusionRequired, mp))
    ∧ (∀ v, (∃ mp2, traverse keccak fuel p (.VerifyInclusion v) mp = some (.ok (), mp2)) ↔
        t = .leafInclusion v)
    ∧ (∀ v, t.isExclusion = true →
        traverse keccak fuel p (.VerifyInclusion v) mp = some (.error .InclusionRequired, mp))
    ∧ (∀ v w, t = .leafInclusion w → w ≠ v →
        traverse keccak fuel p (.VerifyInclusion v) mp = some (.error .IncorrectLeafData, mp))
    ∧ Xor' (∃ mp2, traverse keccak fuel p .VerifyExclusion mp = some (.ok (), mp2))
        (∃ v mp2, traverse keccak fuel p (.VerifyInclusion v) mp = some (.ok (), mp2)) := by
  have hve := traverse_terminus keccak fuel p mp t visited .VerifyExclusion hwalk
  have hvi := fun v => traverse_terminus keccak fuel p mp t visited (.VerifyInclusion v) hwalk
  cases t with
  | leafInclusion w0 =>
    simp only [terminalAction] at hve hvi
    have hviok : traverse keccak fuel p (.VerifyInclusion w0) mp = some (.ok (), mp) := by
      rw [hvi w0]; simp
    refine ⟨?_, ?_, ?_, ?_, ?_, ?_, ?_⟩
    · constructor
      · rintro ⟨mp2, hm⟩
        rw [hve] at hm
        simp at hm
      · intro hx
        simp [Terminus.isExclusion] at hx
    · intro hx
      simp [Terminus.isExclusion] at hx
    · intro w hw
      exact hve
    · intro v
      constructor
      · rintro ⟨mp2, hm⟩
        rw [hvi v] at hm
        by_cases hwv : w0 = v
        · rw [hwv]
        · rw [if_pos hwv] at hm
          simp at hm
      · intro hteq
        have hwv : w0 = v := by
          injection hteq
        refine ⟨mp, ?_⟩
        rw [hvi v, if_neg (by simp [hwv])]
    · intro v hx
      simp [Terminus.isExclusion] at hx
    · intro v w hw hne
      have hww : w0 = w := by injection hw
      rw [hvi v, if_pos (by rw [hww]; exact hne)]
    · refine Or.inr ⟨⟨w0, mp, hviok⟩, ?_⟩
      rintro ⟨mp2, hm⟩
      rw [hve] at hm
      simp at hm
  | branchExclusion =>
    simp only [terminalAction] at hve hvi
    refine ⟨⟨fun _ => rfl, fun _ => ⟨mp, hve⟩⟩, fun _ => hve, ?_, ?_, fun v _ => hvi v, ?_, ?_⟩
    · intro w hw
      simp at hw
    · intro v
      constructor
      · rintro ⟨mp2, hm⟩
        rw [hvi v] at hm
        simp at hm
      · intro hteq
        simp at hteq
    · intro v w hw
      simp at hw
    · refine Or.inl ⟨⟨mp, hve⟩, ?_⟩
      rintro ⟨v, mp2, hm⟩
      rw [hvi v] at hm
      simp at hm
  | extensionExclusion i =>
    simp only [terminalAction] at hve hvi
    refine ⟨⟨fun _ => rfl, fun _ => ⟨mp, hve⟩⟩, fun _ => hve, ?_, ?_, fun v _ => hvi v, ?_, ?_⟩
    · intro w hw
      simp at hw
    · intro v
      constructor
      · rintro ⟨mp2, hm⟩
        rw [hvi v] at hm
        simp at hm
      · intro hteq
        simp at hteq
    · intro v w hw
      simp at hw
    · refine Or.inl ⟨⟨mp, hve⟩, ?_⟩
      rintro ⟨v, mp2, hm⟩
      rw [hvi v] at hm
      simp at hm
  | leafExclusion i =>
    simp only [terminalAction] at hve hvi
    refine ⟨⟨fun _ => rfl, fun _ => ⟨mp, hve⟩⟩, fun _ => hve, ?_, ?_, fun v _ => hvi v, ?_, ?_⟩
    · intro w hw
      simp at hw
    · intro v
      constructor
      · rintro ⟨mp2, hm⟩
        rw [hvi v] at hm
        simp at hm
      · intro hteq
        simp at hteq
    · intro v w hw
      simp at hw
    · refine Or.inl ⟨⟨mp, hve⟩, ?_⟩
      rintro ⟨v, mp2, hm⟩
      rw [hvi v] at hm
      simp at hm

/-- C1 witness: on the one-leaf fixture, the zero key walk is a
leaf-inclusion terminus, VerifyExclusion fails with ExclusionRequired, and
VerifyInclusion of the stored value succeeds. -/
theorem claim_C1_verify_semantics_witness :
    traverse kecConst 2 p0 .VerifyExclusion mp0 = some (.error .ExclusionRequired, mp0)
    ∧ (∃ mp2, traverse kecConst 2 p0 (.VerifyInclusion leafValue0) mp0 = some (.ok (), mp2)) := by
  have h := claim_C1_verify_semantics kecConst 2 p0 mp0 (.leafInclusion leafValue0) [vis0]
    (by rfl)
  exact ⟨h.2.2.1 leafValue0 rfl, (h.2.2.2.1 leafValue0).mpr rfl⟩

/-- C5: Remove at any exclusion terminus returns Ok and leaves the store
untouched (node map and root). -/
theorem claim_C5_remove_noop (keccak : Bytes → H256) (fuel : Nat) (p : Bytes)
    (mp : MultiProof) (t : Terminus) (visited : List VisitedNode)
    (hwalk : walk fuel p mp = some (.ok (t, visited)))
    (hexcl : t.isExclusion = true) :
    traverse keccak fuel p .Remove mp = some (.ok (), mp) := by
  have h := traverse_terminus keccak fuel p mp t visited .Remove hwalk
  cases t with
  | branchExclusion => exact h
  | extensionExclusion i => exact h
  | leafExclusion i => exact h
  | leafInclusion w => simp [Terminus.isExclusion] at hexcl

/-- C5 witness: Remove of an excluded key on the one-leaf fixture is a
no-op. -/
theorem claim_C5_remove_noop_witness :
    traverse kecConst 2 p1 .Remove mp0 = some (.ok (), mp0) :=
  claim_C5_remove_noop kecConst 2 p1 mp0 (.leafExclusion 1) [vis1] (by rfl) (by decide)

/-- C3: Modify with the canonical empty-value encoding at any exclusion
terminus succeeds and leaves the node map (pointwise) and root unchanged. -/
theorem claim_C3_modify_empty_noop (keccak : Bytes → H256) (fuel : Nat) (p : Bytes)
    (mp : MultiProof) (v : Bytes) (t : Terminus) (visited : List VisitedNode)
    (hwalk : walk fuel p mp = some (.ok (t, visited)))
    (hexcl : t.isExclusion = true)
    (hv : is_empty_value v = true) :
    ∃ mp2, traverse keccak fuel p (.Modify v) mp = some (.ok (), mp2)
      ∧ (∀ h, mp2.data h = mp.data h) ∧ mp2.root = mp.root := by
  obtain ⟨last, rlp, hlast, hdata⟩ :=
    walkAux_ok_last mp fuel (NibblePath.init p) mp.root [] t visited hwalk
  have ht := traverse_terminus keccak fuel p mp t visited (.Modify v) hwalk
  cases t with
  | branchExclusion =>
    simp only [terminalAction] at ht
    rw [apply_changes_branch_empty keccak v visited mp last rlp hv hlast hdata] at ht
    refine ⟨{ data := mapInsert (mapRemove mp.data last.nodeHash) last.nodeHash rlp,
              root := mp.root }, by rw [ht]; rfl,
      fun h => mapInsert_mapRemove_self mp.data _ _ hdata h, rfl⟩
  | extensionExclusion i =>
    simp only [terminalAction] at ht
    rw [apply_changes_extension_empty keccak v i visited mp last rlp hv hlast hdata] at ht
    refine ⟨{ data := mapInsert (mapRemove mp.data last.nodeHash) last.nodeHash rlp,
              root := mp.root }, by rw [ht]; rfl,
      fun h => mapInsert_mapRemove_self mp.data _ _ hdata h, rfl⟩
  | leafExclusion i =>
    simp only [terminalAction] at ht
    rw [apply_changes_leaf_empty keccak v i visited mp last rlp hv hlast hdata] at ht
    refine ⟨{ data := mapInsert (mapRemove mp.data last.nodeHash) last.nodeHash rlp,
              root := mp.root }, by rw [ht]; rfl,
      fun h => mapInsert_mapRemove_self mp.data _ _ hdata h, rfl⟩
  | leafInclusion w => simp [Terminus.isExclusion] at hexcl

/-- C3 witness: modifying an excluded key of the one-leaf fixture to rlp(0)
is a no-op. -/
theorem claim_C3_modify_empty_noop_witness :
    ∃ mp2, traverse kecConst 2 p1 (.Modify (rlpEncodeBytes (beBytes 0))) mp0 =
      some (.ok (), mp2) ∧ (∀ h, mp2.data h = mp0.data h) ∧ mp2.root = mp0.root :=
  claim_C3_modify_empty_noop kecConst 2 p1 mp0 (rlpEncodeBytes (beBytes 0))
    (.leafExclusion 1) [vis1] (by rfl) (by decide) (by decide)

/-- C10: traversal under a verification intent never changes the store: any
returned store is the input store, for both intents and both outcomes. -/
theorem claim_C10_verify_pure (keccak : Bytes → H256) (fuel : Nat) (p : Bytes)
    (mp : MultiProof) :
    (∀ v, (traverse keccak fuel p (.VerifyInclusion v) mp).elim True (fun r => r.2 = mp))
    ∧ (traverse keccak fuel p .VerifyExclusion mp).elim True (fun r => r.2 = mp) := by
  constructor
  · intro v
    rw [traverse_eq_walk]
    cases hw : walk fuel p mp with
    | none => exact trivial
    | some r =>
      cases r with
      | error e => exact rfl
      | ok pr =>
        obtain ⟨t, vis⟩ := pr
        cases t with
        | branchExclusion => exact rfl
        | extensionExclusion i => exact rfl
        | leafExclusion i => exact rfl
        | leafInclusion w =>
          by_cases hwv : w ≠ v
          · simp [terminalAction, hwv]
          · simp [terminalAction, hwv, not_not.mp hwv]
  · rw [traverse_eq_walk]
    cases hw : walk fuel p mp with
    | none => exact trivial
    | some r =>
      cases r with
      | error e => exact rfl
      | ok pr =>
        obtain ⟨t, vis⟩ := pr
        cases t <;> exact rfl

/-- C4 counterexample: on the one-leaf fixture, Modify(rlp(0)) at the
leaf-inclusion terminus succeeds, but the subsequent VerifyExclusion fails
with ExclusionRequired instead of succeeding. -/
theorem claim_C4_counterexample :
    traverse kecConst 2 p0 (.Modify (rlpEncodeBytes (beBytes 0))) mp0 =
      some (.ok (), mpAfter0)
    ∧ traverse kecConst 2 p0 .VerifyExclusion mpAfter0 =
      some (.error .ExclusionRequired, mpAfter0)
    ∧ ∀ mpC, traverse kecConst 2 p0 .VerifyExclusion mpAfter0 ≠ some (.ok (), mpC) := by
  refine ⟨rfl, rfl, ?_⟩
  intro mpC h
  have h2 := (show traverse kecConst 2 p0 .VerifyExclusion mpAfter0 =
    some (.error .ExclusionRequired, mpAfter0) from rfl).symm.trans h
  simp at h2

/-- C4 amended: Modify(rlp(0)) at a leaf-inclusion terminus dispatches the
LeafInclusionModify change (a value write), not Remove semantics; on the
one-leaf fixture the traversal succeeds, the root changes, the subsequent
VerifyInclusion(rlp(0)) succeeds and VerifyExclusion fails with
ExclusionRequired. -/
theorem claim_C4_modify_zero (keccak : Bytes → H256) (fuel : Nat) (p : Bytes)
    (mp : MultiProof) (w : Bytes) (visited : List VisitedNode)
    (hwalk : walk fuel p mp = some (.ok (.leafInclusion w, visited))) :
    traverse keccak fuel p (.Modify (rlpEncodeBytes (beBytes 0))) mp =
      some (wrapModify (apply_changes keccak
        (.LeafInclusionModify (rlpEncodeBytes (beBytes 0))) visited mp))
    ∧ traverse kecConst 2 p0 (.Modify (rlpEncodeBytes (beBytes 0))) mp0 =
      some (.ok (), mpAfter0)
    ∧ mpAfter0.root ≠ mp0.root
    ∧ traverse kecConst 2 p0 (.VerifyInclusion (rlpEncodeBytes (beBytes 0))) mpAfter0 =
      some (.ok (), mpAfter0)
    ∧ traverse kecConst 2 p0 .VerifyExclusion mpAfter0 =
      some (.error .ExclusionRequired, mpAfter0) := by
  refine ⟨?_, rfl, by decide, rfl, rfl⟩
  exact traverse_terminus keccak fuel p mp (.leafInclusion w) visited
    (.Modify (rlpEncodeBytes (beBytes 0))) hwalk

/-- C4 witness: the dispatch theorem applied to the one-leaf fixture. -/
theorem claim_C4_modify_zero_witness :
    traverse kecConst 2 p0 (.Modify (rlpEncodeBytes (beBytes 0))) mp0 =
      some (wrapModify (apply_changes kecConst
        (.LeafInclusionModify (rlpEncodeBytes (beBytes 0))) [vis0] mp0)) :=
  (claim_C4_modify_zero kecConst 2 p0 mp0 leafValue0 [vis0] (by rfl)).1

/-- Inner insert_proof loop past the first node: always succeeds, keeps the
root, touches only the keys of the inserted nodes, and (absent hash
collisions among the nodes) binds every node under its hash. -/
theorem insert_proof_from_pos (keccak : Bytes → H256) :
    ∀ (nodes : List Bytes) (idx : Nat) (mp : MultiProof), idx ≠ 0 →
    ∃ mp2, insert_proof_from keccak idx nodes mp = (.ok (), mp2)
      ∧ mp2.root = mp.root
      ∧ (∀ h, (∀ n ∈ nodes, keccak n ≠ h) → mp2.data h = mp.data h)
      ∧ ((nodes.map keccak).Nodup → ∀ n ∈ nodes, mp2.data (keccak n) = some n) := by
  intro nodes
  induction nodes with
  | nil =>
    intro idx mp _
    exact ⟨mp, rfl, rfl, fun _ _ => rfl, fun _ n hn => absurd hn (List.not_mem_nil n)⟩
  | cons m ms ih =>
    intro idx mp hidx
    obtain ⟨mp2, hrun, hroot, huntouched, hmem⟩ :=
      ih (idx + 1) { mp with data := mapInsert mp.data (keccak m) m } (by omega)
    refine ⟨mp2, ?_, hroot, ?_, ?_⟩
    · rw [insert_proof_from]
      rw [if_neg (by intro hc; exact hidx hc.1), if_neg (by intro hc; exact hidx hc.1)]
      exact hrun
    · intro h hne
      rw [huntouched h (fun n hn => hne n (List.mem_cons_of_mem m hn))]
      show (if h = keccak m then some m else mp.data h) = mp.data h
      rw [if_neg (fun hc => hne m (List.mem_cons_self m ms) hc.symm)]
    · intro hnodup n hn
      rw [List.map_cons, List.nodup_cons] at hnodup
      rcases List.mem_cons.mp hn with hnm | hnms
      · subst hnm
        rw [huntouched (keccak n) (fun n2 hn2 hk => hnodup.1 (hk ▸ List.mem_map_of_mem keccak hn2))]
        show (if keccak n = keccak n then some n else mp.data (keccak n)) = some n
        rw [if_pos rfl]
      · exact hmem hnodup.2 n hnms

/-- C2: on an uninitialized store (zero root) insert_proof adopts the hash
of the first node as root, succeeds, and (absent hash collisions among the
inserted nodes) binds every node under its keccak hash; on an initialized
store whose root differs from the first node hash it fails with
ProofRootMismatch carrying expected = current root and computed = first
node hash, leaving node map and root untouched. -/
theorem claim_C2_insert_proof (keccak : Bytes → H256) (mp : MultiProof)
    (n0 : Bytes) (rest : List Bytes) :
    (mp.root = zeroH →
      ∃ mp2, insert_proof keccak (n0 :: rest) mp = (.ok (), mp2)
        ∧ mp2.root = keccak n0
        ∧ (((n0 :: rest).map keccak).Nodup →
            ∀ n ∈ n0 :: rest, mp2.data (keccak n) = some n))
    ∧ (mp.root ≠ zeroH → keccak n0 ≠ mp.root →
        insert_proof keccak (n0 :: rest) mp =
          (.error (.ProofRootMismatch mp.root (keccak n0) n0), mp)) := by
  constructor
  · intro hroot
    obtain ⟨mp2, hrun, hroot2, huntouched, hmem⟩ :=
      insert_proof_from_pos keccak rest 1
        { data := mapInsert mp.data (keccak n0) n0, root := keccak n0 } (by omega)
    refine ⟨mp2, ?_, hroot2, ?_⟩
    · have hstep : insert_proof keccak (n0 :: rest) mp =
          insert_proof_from keccak 1 rest
            { data := mapInsert mp.data (keccak n0) n0, root := keccak n0 } := by
        unfold insert_proof
        rw [insert_proof_from]
        rw [hroot]
        simp
      rw [hstep]
      exact hrun
    · intro hnodup n hn
      rw [List.map_cons, List.nodup_cons] at hnodup
      rcases List.mem_cons.mp hn with hnm | hnms
      · subst hnm
        rw [huntouched (keccak n) (fun n2 hn2 hk => hnodup.1 (hk ▸ List.mem_map_of_mem keccak hn2))]
        show (if keccak n = keccak n then some n else mp.data (keccak n)) = some n
        rw [if_pos rfl]
      · exact hmem hnodup.2 n hnms
  · intro hroot hne
    unfold insert_proof
    rw [insert_proof_from]
    rw [if_neg (show ¬(0 = 0 ∧ mp.root = zeroH) from fun hc => hroot hc.2)]
    rw [if_pos (show 0 = 0 ∧ keccak n0 ≠ mp.root from ⟨rfl, hne⟩)]

/-- C2 witness: with the identity as stand-in hash, an uninitialized store
adopts the first node as root and holds both nodes; an initialized store
with a different root rejects the proof unchanged. -/
theorem claim_C2_insert_proof_witness :
    (∃ mp2, insert_proof (fun b => b) [[1], [2]] (MultiProof.init zeroH) = (.ok (), mp2)
      ∧ mp2.root = [1]
      ∧ mp2.data [2] = some [2])
    ∧ insert_proof (fun b => b) [[1], [2]] (MultiProof.init [9]) =
      (.error (.ProofRootMismatch [9] [1] [1]), MultiProof.init [9]) := by
  constructor
  · obtain ⟨mp2, hrun, hroot, hmem⟩ :=
      (claim_C2_insert_proof (fun b => b) (MultiProof.init zeroH) [1] [[2]]).1 rfl
    exact ⟨mp2, hrun, hroot, hmem (by decide) [2] (by simp)⟩
  · exact (claim_C2_insert_proof (fun b => b) (MultiProof.init [9]) [1] [[2]]).2
      (by decide) (by decide)

/-! ## Hash integrity (claim C6) -/

/-- Hash integrity of a node map. -/
def mapIntegrity (keccak : Bytes → H256) (m : NodeMap) : Prop :=
  ∀ h n, m h = some n → h = keccak n

theorem mapIntegrity_insert (keccak : Bytes → H256) {m : NodeMap}
    (hm : mapIntegrity keccak m) {k : H256} {n : Bytes} (hk : k = keccak n) :
    mapIntegrity keccak (mapInsert m k n) := by
  intro h x hx
  unfold mapInsert at hx
  by_cases hh : h = k
  · rw [if_pos hh] at hx
    injection hx with hnx
    rw [hh, hk, hnx]
  · rw [if_neg hh] at hx
    exact hm h x hx

theorem mapIntegrity_insert_keyed (keccak : Bytes → H256) {m : NodeMap}
    (hm : mapIntegrity keccak m) (n : Bytes) :
    mapIntegrity keccak (mapInsert m (keccak n) n) :=
  mapIntegrity_insert keccak hm rfl

theorem mapIntegrity_remove (keccak : Bytes → H256) {m : NodeMap}
    (hm : mapIntegrity keccak m) (k : H256) :
    mapIntegrity keccak (mapRemove m k) := by
  intro h x hx
  unfold mapRemove at hx
  by_cases hh : h = k
  · rw [if_pos hh] at hx
    cases hx
  · rw [if_neg hh] at hx
    exact hm h x hx

theorem update_node_with_child_hash_integrity (keccak : Bytes → H256)
    {visited : VisitedNode} {childHash : Bytes} {mp : MultiProof}
    (hmp : mapIntegrity keccak mp.data) :
    mapIntegrity keccak (update_node_with_child_hash keccak visited childHash mp).2.data := by
  simp only [update_node_with_child_hash]
  split
  · exact hmp
  · split <;>
      first
      | exact mapIntegrity_remove keccak hmp _
      | exact mapIntegrity_insert_keyed keccak (mapIntegrity_remove keccak hmp _) _

theorem update_chain_integrity (keccak : Bytes → H256) {nodes : List VisitedNode}
    {h : H256} {mp : MultiProof} (hmp : mapIntegrity keccak mp.data) :
    mapIntegrity keccak (update_chain keccak nodes h mp).2.data := by
  induction nodes generalizing h mp with
  | nil => exact hmp
  | cons n rest ih =>
    simp only [update_chain]
    split
    · rename_i e mp2 heq
      have hu := @update_node_with_child_hash_integrity keccak n h _ hmp
      rw [heq] at hu
      exact hu
    · rename_i h2 mp2 heq
      have hu := @update_node_with_child_hash_integrity keccak n h _ hmp
      rw [heq] at hu
      exact ih hu

/-- Equation form of update_chain_integrity, for use at split hypotheses. -/
theorem update_chain_integrity_eq (keccak : Bytes → H256) {nodes : List VisitedNode}
    {h : H256} {mp : MultiProof} {r : Except ModifyError H256} {mp2 : MultiProof}
    (heq : update_chain keccak nodes h mp = (r, mp2))
    (hmp : mapIntegrity keccak mp.data) : mapIntegrity keccak mp2.data := by
  have hu := @update_chain_integrity keccak nodes h _ hmp
  rw [heq] at hu
  exact hu

theorem add_branch_for_new_leaf_integrity (keccak : Bytes → H256)
    {oldNode : List Bytes} {lastVisited : VisitedNode} {divergentNibbleIndex : Nat}
    {oldNodeKind : TargetNodeEncoding} {newLeafValue : Bytes} {mp : MultiProof}
    (hmp : mapIntegrity keccak mp.data) :
    mapIntegrity keccak
      (add_branch_for_new_leaf keccak oldNode lastVisited divergentNibbleIndex
        oldNodeKind newLeafValue mp).2.data := by
  simp only [add_branch_for_new_leaf]
  repeat' split
  all_goals repeat
    first
    | exact hmp
    | apply mapIntegrity_insert_keyed keccak
    | apply mapIntegrity_remove keccak

/-- Equation form of add_branch_for_new_leaf_integrity. -/
theorem add_branch_for_new_leaf_integrity_eq (keccak : Bytes → H256)
    {oldNode : List Bytes} {lastVisited : VisitedNode} {divergentNibbleIndex : Nat}
    {oldNodeKind : TargetNodeEncoding} {newLeafValue : Bytes} {mp : MultiProof}
    {r : Except ModifyError H256} {mp2 : MultiProof}
    (heq : add_branch_for_new_leaf keccak oldNode lastVisited divergentNibbleIndex
      oldNodeKind newLeafValue mp = (r, mp2))
    (hmp : mapIntegrity keccak mp.data) : mapIntegrity keccak mp2.data := by
  have hu := @add_branch_for_new_leaf_integrity keccak oldNode lastVisited
    divergentNibbleIndex oldNodeKind newLeafValue _ hmp
  rw [heq] at hu
  exact hu

theorem resolve_child_and_grandparent_paths_integrity (keccak : Bytes → H256)
    {a : Bytes} {b : Nat} {c : H256} {mp : MultiProof}
    (hmp : mapIntegrity keccak mp.data) :
    mapIntegrity keccak (resolve_child_and_grandparent_paths a b c mp).2.data := by
  simp only [resolve_child_and_grandparent_paths]
  split <;> exact hmp

/-- Equation form of resolve_child_and_grandparent_paths_integrity. -/
theorem resolve_child_and_grandparent_paths_integrity_eq (keccak : Bytes → H256)
    {a : Bytes} {b : Nat} {c : H256} {mp : MultiProof}
    {r : Except ModifyError H256} {mp2 : MultiProof}
    (heq : resolve_child_and_grandparent_paths a b c mp = (r, mp2))
    (hmp : mapIntegrity keccak mp.data) : mapIntegrity keccak mp2.data := by
  have hu := @resolve_child_and_grandparent_paths_integrity keccak a b c _ hmp
  rw [heq] at hu
  exact hu

theorem process_child_removal_integrity (keccak : Bytes → H256)
    {visitRecord : List VisitedNode} {visitIndex : Nat} {mp : MultiProof}
    (hmp : mapIntegrity keccak mp.data) :
    mapIntegrity keccak (process_child_removal keccak visitRecord visitIndex mp).2.data := by
  simp only [process_child_removal]
  repeat' split
  all_goals
    first
    | exact hmp
    | exact mapIntegrity_remove keccak hmp _
    | exact mapIntegrity_insert_keyed keccak (mapIntegrity_remove keccak hmp _) _
    | (rename_i heq
       have hx := resolve_child_and_grandparent_paths_integrity_eq keccak heq
         (mapIntegrity_remove keccak hmp _)
       exact hx)

/-- Equation form of process_child_removal_integrity. -/
theorem process_child_removal_integrity_eq (keccak : Bytes → H256)
    {visitRecord : List VisitedNode} {visitIndex : Nat} {mp : MultiProof}
    {r : Except ModifyError (H256 × Nat)} {mp2 : MultiProof}
    (heq : process_child_removal keccak visitRecord visitIndex mp = (r, mp2))
    (hmp : mapIntegrity keccak mp.data) : mapIntegrity keccak mp2.data := by
  have hu := @process_child_removal_integrity keccak visitRecord visitIndex _ hmp
  rw [heq] at hu
  exact hu

theorem apply_changes_integrity (keccak : Bytes → H256) {change : Change}
    {visited : List VisitedNode} {mp : MultiProof}
    (hmp : mapIntegrity keccak mp.data) :
    mapIntegrity keccak (apply_changes keccak change visited mp).2.data := by
  simp only [apply_changes]
  split
  · exact hmp
  rename_i lastVisited hlast
  split
  · exact hmp
  rename_i oldRlp hdata
  have hkey : lastVisited.nodeHash = keccak oldRlp := hmp _ _ hdata
  have hrm : mapIntegrity keccak (mapRemove mp.data lastVisited.nodeHash) :=
    mapIntegrity_remove keccak hmp _
  repeat' split
  all_goals
    first
    | exact hmp
    | exact hrm
    | exact mapIntegrity_insert keccak hrm hkey
    | exact mapIntegrity_insert_keyed keccak hrm _
    | exact mapIntegrity_insert_keyed keccak (mapIntegrity_insert_keyed keccak hrm _) _
    | (rename update_chain _ _ _ _ = _ => heqC
       rename add_branch_for_new_leaf _ _ _ _ _ _ _ = _ => heqA
       have hx := update_chain_integrity_eq keccak heqC
         (add_branch_for_new_leaf_integrity_eq keccak heqA hrm)
       exact hx)
    | (rename update_chain _ _ _ _ = _ => heqC
       rename process_child_removal _ _ _ _ = _ => heqP
       have hx := update_chain_integrity_eq keccak heqC
         (process_child_removal_integrity_eq keccak heqP hrm)
       exact hx)
    | (rename update_chain _ _ _ _ = _ => heqC
       first
       | (have hx := update_chain_integrity_eq keccak heqC hrm
          exact hx)
       | (have hx := update_chain_integrity_eq keccak heqC
            (mapIntegrity_insert keccak hrm hkey)
          exact hx)
       | (have hx := update_chain_integrity_eq keccak heqC
            (mapIntegrity_insert_keyed keccak hrm _)
          exact hx)
       | (have hx := update_chain_integrity_eq keccak heqC
            (mapIntegrity_insert_keyed keccak (mapIntegrity_insert_keyed keccak hrm _) _)
          exact hx))
    | (rename add_branch_for_new_leaf _ _ _ _ _ _ _ = _ => heqA
       have hx := add_branch_for_new_leaf_integrity_eq keccak heqA hrm
       exact hx)
    | (rename process_child_removal _ _ _ _ = _ => heqP
       have hx := process_child_removal_integrity_eq keccak heqP hrm
       exact hx)

theorem wrapModify_snd (x : Except ModifyError Unit × MultiProof) :
    (wrapModify x).2 = x.2 := by
  obtain ⟨r, m⟩ := x
  cases r with
  | ok u => cases u; rfl
  | error e => rfl

theorem insert_proof_from_integrity (keccak : Bytes → H256) :
    ∀ (nodes : List Bytes) (idx : Nat) (mp : MultiProof),
    mapIntegrity keccak mp.data →
    mapIntegrity keccak (insert_proof_from keccak idx nodes mp).2.data := by
  intro nodes
  induction nodes with
  | nil => intro idx mp hmp; exact hmp
  | cons m ms ih =>
    intro idx mp hmp
    rw [insert_proof_from]
    split
    · split
      · exact hmp
      · exact ih (idx + 1)
          { data := mapInsert mp.data (keccak m) m, root := keccak m }
          (mapIntegrity_insert_keyed keccak hmp m)
    · split
      · exact hmp
      · exact ih (idx + 1)
          { data := mapInsert mp.data (keccak m) m, root := mp.root }
          (mapIntegrity_insert_keyed keccak hmp m)

theorem traverse_integrity (keccak : Bytes → H256) (fuel : Nat) (p : Bytes)
    (intent : Intent) (mp : MultiProof) (hmp : mapIntegrity keccak mp.data)
    (r : Except ProofError Unit) (mp2 : MultiProof)
    (htr : traverse keccak fuel p intent mp = some (r, mp2)) :
    mapIntegrity keccak mp2.data := by
  rw [traverse_eq_walk] at htr
  cases hw : walk fuel p mp with
  | none => rw [hw] at htr; cases htr
  | some wr =>
    rw [hw] at htr
    cases wr with
    | error e =>
      simp only [Option.map] at htr
      injection htr with h1
      have h2 : mp2 = mp := congrArg Prod.snd h1.symm
      rw [h2]
      exact hmp
    | ok pr =>
      obtain ⟨t, vis⟩ := pr
      simp only [Option.map] at htr
      injection htr with h1
      have h2 : mp2 = (terminalAction keccak mp t vis intent).2 := congrArg Prod.snd h1.symm
      rw [h2]
      cases t <;> cases intent <;>
        simp only [terminalAction] <;>
        first
        | exact hmp
        | (rw [wrapModify_snd]
           exact apply_changes_integrity keccak hmp)
        | (split <;> exact hmp)


/-- C6: hash integrity is preserved by every store operation: if every bound
node hashes to its key, the same holds after insert_proof and after any
traverse (any intent, any outcome), since every insertion keys node bytes by
their keccak256 hash and replacements re-insert re-encoded nodes under
their new hash. -/
theorem claim_C6_hash_integrity (keccak : Bytes → H256) (mp : MultiProof)
    (hmp : mapIntegrity keccak mp.data) :
    (∀ proof, mapIntegrity keccak (insert_proof keccak proof mp).2.data)
    ∧ (∀ fuel p intent r mp2, traverse keccak fuel p intent mp = some (r, mp2) →
        mapIntegrity keccak mp2.data) := by
  constructor
  · intro proof
    exact insert_proof_from_integrity keccak proof 0 mp hmp
  · intro fuel p intent r mp2 htr
    exact traverse_integrity keccak fuel p intent mp hmp r mp2 htr

/-- C6 witness: integrity after inserting a proof into an empty store, with
the identity as stand-in hash function. -/
theorem claim_C6_hash_integrity_witness :
    mapIntegrity (fun b => b)
      ((insert_proof (fun b => b) [[1], [2]] (MultiProof.init zeroH)).2.data) :=
  (claim_C6_hash_integrity (fun b => b) (MultiProof.init zeroH)
    (fun _ _ hn => nomatch hn)).1 [[1], [2]]

/-! ## Input proof data model

The EIP-1186 proof response shape of the ethers crate and the BlockProofs
wrapper of the inventory crate (its types module is not under the excerpted
sources; the shape is fixed by its uses in oracle.rs and transferrable.rs).
HashMap iteration is modelled as an association list in iteration order. -/

/-- One storage proof entry of an EIP-1186 response: key, value, node list. -/
structure StorageProofEntry where
  key : Bytes
  value : Nat
  proof : List Bytes
deriving DecidableEq, Repr

/-- EIP1186ProofResponse of the ethers crate (external type). -/
structure EIP1186ProofResponse where
  address : Bytes
  balance : Nat
  code_hash : Bytes
  nonce : Nat
  storage_hash : Bytes
  account_proof : List Bytes
  storage_proof : List StorageProofEntry
deriving DecidableEq, Repr

/-- BlockProofs: per-address proofs of one block (HashMap as an association
list). -/
structure BlockProofs where
  proofs : List (Bytes × EIP1186ProofResponse)
deriving DecidableEq, Repr

/-! ## Oracle construction (oracle.rs, claim C9) -/

/-- OracleError from oracle.rs (the variants the selection loop uses). -/
inductive OracleError
  | NoPostStateAddress (a : Bytes)
  | NoPreStateAddress (a : Bytes)
  | NoPostStateKey (address key : Bytes)
deriving DecidableEq, Repr

/-- InterestingUpdate from oracle.rs: a storage update that crosses between
exclusion and inclusion. -/
structure InterestingUpdate where
  address : Bytes
  key : Bytes
  value : Nat
deriving DecidableEq, Repr

/-- storage_created_or_destroyed from oracle.rs: storage went from absent to
present or from present to absent across the block. -/
def storage_created_or_destroyed (val_pre val_post : Nat) : Bool :=
  let e_to_i := decide (val_pre = 0) && !(decide (val_post = 0))
  let i_to_e := !(decide (val_pre = 0)) && decide (val_post = 0)
  e_to_i || i_to_e

/-- The inner selection loop of oracle_from_simulated_state_update over the
storage proofs of one post-state account: look the key up in the pre state
(failing as the source does) and keep the update when
storage_created_or_destroyed holds. -/
def collectUpdatesAccount (pre : BlockProofs) (address : Bytes) :
    List StorageProofEntry → Except OracleError (List InterestingUpdate)
  | [] => .ok []
  | sp :: rest =>
    match pre.proofs.find? (fun x => decide (x.1 = address)) with
    | none => .error (.NoPreStateAddress address)
    | some accPre =>
      match accPre.2.storage_proof.find? (fun x => decide (x.key = sp.key)) with
      | none => .error (.NoPostStateKey address sp.key)
      | some preEntry =>
        match collectUpdatesAccount pre address rest with
        | .error e => .error e
        | .ok us =>
          if storage_created_or_destroyed preEntry.value sp.value then
            .ok ({ address := address, key := sp.key, value := sp.value } :: us)
          else .ok us

/-- The outer selection loop of oracle_from_simulated_state_update over the
post-state accounts. -/
def collectInterestingUpdates (pre : BlockProofs) :
    List (Bytes × EIP1186ProofResponse) → Except OracleError (List InterestingUpdate)
  | [] => .ok []
  | pr :: rest =>
    match collectUpdatesAccount pre pr.1 pr.2.storage_proof with
    | .error e => .error e
    | .ok us =>
      match collectInterestingUpdates pre rest with
      | .error e => .error e
      | .ok vs => .ok (us ++ vs)

/-- Lexicographic byte-string order (the order of H256 keys in the Rust
sort_by_key call). -/
def bytesLe : Bytes → Bytes → Bool
  | [], _ => true
  | _ :: _, [] => false
  | x :: xs, y :: ys => if x < y then true else if y < x then false else bytesLe xs ys

/-- Key order on interesting updates. -/
def keyLe (a b : InterestingUpdate) : Prop := bytesLe a.key b.key = true

instance : DecidableRel keyLe := fun a b => by
  unfold keyLe
  infer_instance

theorem bytesLe_total : ∀ a b : Bytes, bytesLe a b = true ∨ bytesLe b a = true := by
  intro a
  induction a with
  | nil => intro b; exact Or.inl rfl
  | cons x xs ih =>
    intro b
    cases b with
    | nil => exact Or.inr rfl
    | cons y ys =>
      by_cases hxy : x < y
      · left
        simp [bytesLe, hxy]
      · by_cases hyx : y < x
        · right
          simp [bytesLe, hyx]
        · rcases ih ys with h | h
          · left
            simp [bytesLe, hxy, hyx, h]
          · right
            simp [bytesLe, hxy, hyx, h]

theorem bytesLe_trans : ∀ a b c : Bytes,
    bytesLe a b = true → bytesLe b c = true → bytesLe a c = true := by
  intro a
  induction a with
  | nil => intro b c _ _; rfl
  | cons x xs ih =>
    intro b c hab hbc
    cases b with
    | nil => simp [bytesLe] at hab
    | cons y ys =>
      cases c with
      | nil => simp [bytesLe] at hbc
      | cons z zs =>
        simp only [bytesLe] at hab hbc ⊢
        by_cases hxy : x < y
        · by_cases hyz : y < z
          · simp [show x < z from Nat.lt_trans hxy hyz]
          · by_cases hzy : z < y
            · simp [bytesLe, hyz, hzy] at hbc
            · have hyzeq : y = z := Nat.le_antisymm (Nat.le_of_not_lt hzy) (Nat.le_of_not_lt hyz)
              simp [show x < z from hyzeq ▸ hxy]
        · by_cases hyx : y < x
          · simp [hxy, hyx] at hab
          · have hxyeq : x = y := Nat.le_antisymm (Nat.le_of_not_lt hyx) (Nat.le_of_not_lt hxy)
            subst hxyeq
            by_cases hxz : x < z
            · simp [hxz]
            · by_cases hzx : z < x
              · simp [bytesLe, hxz, hzx] at hbc
              · simp only [hxy, hzx, if_neg, ite_false] at hab hbc ⊢
                simp only [if_neg hxz]
                exact ih ys zs (by simpa [hxy] using hab) (by simpa [hxz, hzx] using hbc)

instance : IsTotal InterestingUpdate keyLe :=
  ⟨fun a b => bytesLe_total a.key b.key⟩

instance : IsTrans InterestingUpdate keyLe :=
  ⟨fun a b c => bytesLe_trans a.key b.key c.key⟩

/-- The sort in oracle_from_simulated_state_update (updates.sort_by_key by
storage key; a stable comparison sort, modelled by insertion sort). -/
def sortUpdatesByKey (us : List InterestingUpdate) : List InterestingUpdate :=
  us.insertionSort keyLe

/-- The selection-and-sort phase of oracle_from_simulated_state_update: the
sorted list of interesting updates that the replay loop then walks in
order.  The replay itself (update_storage_proof on the pre-state
multiproof) lives in the eip1186 module of the multiproof crate, which is
not among the excerpted sources. -/
def interesting_updates_sorted (pre post : BlockProofs) :
    Except OracleError (List InterestingUpdate) :=
  match collectInterestingUpdates pre post.proofs with
  | .error e => .error e
  | .ok updates => .ok (sortUpdatesByKey updates)

/-- Membership in the per-account selection: an update is kept exactly when
its key sits in the post-state entries, resolves in the pre state, and the
value pair crosses the exclusion boundary. -/
theorem collectUpdatesAccount_mem (pre : BlockProofs) (address : Bytes) :
    ∀ (entries : List StorageProofEntry) (us : List InterestingUpdate),
    collectUpdatesAccount pre address entries = .ok us →
    ∀ u, u ∈ us ↔ ∃ sp ∈ entries,
      u = { address := address, key := sp.key, value := sp.value } ∧
      ∃ accPre, pre.proofs.find? (fun x => decide (x.1 = address)) = some accPre ∧
      ∃ preEntry,
        accPre.2.storage_proof.find? (fun x => decide (x.key = sp.key)) = some preEntry ∧
        storage_created_or_destroyed preEntry.value sp.value = true := by
  intro entries
  induction entries with
  | nil =>
    intro us hok u
    simp only [collectUpdatesAccount] at hok
    injection hok with h
    subst h
    simp
  | cons sp rest ih =>
    intro us hok u
    rw [collectUpdatesAccount] at hok
    obtain ⟨accPre, hfind⟩ :
        ∃ a, pre.proofs.find? (fun x => decide (x.1 = address)) = some a := by
      cases hf : pre.proofs.find? (fun x => decide (x.1 = address)) with
      | none => rw [hf] at hok; cases hok
      | some a => exact ⟨a, rfl⟩
    rw [hfind] at hok
    simp only at hok
    obtain ⟨preEntry, hfind2⟩ :
        ∃ a, accPre.2.storage_proof.find? (fun x => decide (x.key = sp.key)) = some a := by
      cases hf : accPre.2.storage_proof.find? (fun x => decide (x.key = sp.key)) with
      | none => rw [hf] at hok; cases hok
      | some a => exact ⟨a, rfl⟩
    rw [hfind2] at hok
    simp only at hok
    obtain ⟨us2, hrec⟩ :
        ∃ v, collectUpdatesAccount pre address rest = .ok v := by
      cases hf : collectUpdatesAccount pre address rest with
      | error e => rw [hf] at hok; cases hok
      | ok v => exact ⟨v, rfl⟩
    rw [hrec] at hok
    simp only at hok
    by_cases htr : storage_created_or_destroyed preEntry.value sp.value = true
    · rw [if_pos htr] at hok
      injection hok with h
      subst h
      constructor
      · intro hu
        rcases List.mem_cons.mp hu with h1 | h1
        · exact ⟨sp, List.mem_cons_self _ _, h1, accPre, hfind, preEntry, hfind2, htr⟩
        · obtain ⟨sp2, hsp2, hrest⟩ := (ih us2 hrec u).mp h1
          exact ⟨sp2, List.mem_cons_of_mem _ hsp2, hrest⟩
      · rintro ⟨sp2, hsp2, hu, accPre2, hfindB, preEntry2, hfind2B, htrB⟩
        rcases List.mem_cons.mp hsp2 with h2 | h2
        · subst h2
          rw [hu]
          exact List.mem_cons_self _ _
        · exact List.mem_cons_of_mem _
            ((ih us2 hrec u).mpr ⟨sp2, h2, hu, accPre2, hfindB, preEntry2, hfind2B, htrB⟩)
    · rw [if_neg htr] at hok
      injection hok with h
      subst h
      constructor
      · intro hu
        obtain ⟨sp2, hsp2, hrest⟩ := (ih us2 hrec u).mp hu
        exact ⟨sp2, List.mem_cons_of_mem _ hsp2, hrest⟩
      · rintro ⟨sp2, hsp2, hu, accPre2, hfindB, preEntry2, hfind2B, htrB⟩
        rcases List.mem_cons.mp hsp2 with h2 | h2
        · subst h2
          rw [hfind] at hfindB
          injection hfindB with hacc
          subst hacc
          rw [hfind2] at hfind2B
          injection hfind2B with hpe
          subst hpe
          exact absurd htrB htr
        · exact (ih us2 hrec u).mpr ⟨sp2, h2, hu, accPre2, hfindB, preEntry2, hfind2B, htrB⟩

/-- Membership in the full selection over all post-state accounts. -/
theorem collectInterestingUpdates_mem (pre : BlockProofs) :
    ∀ (posts : List (Bytes × EIP1186ProofResponse)) (us : List InterestingUpdate),
    collectInterestingUpdates pre posts = .ok us →
    ∀ u, u ∈ us ↔ ∃ pr ∈ posts, ∃ sp ∈ pr.2.storage_proof,
      u = { address := pr.1, key := sp.key, value := sp.value } ∧
      ∃ accPre, pre.proofs.find? (fun x => decide (x.1 = pr.1)) = some accPre ∧
      ∃ preEntry,
        accPre.2.storage_proof.find? (fun x => decide (x.key = sp.key)) = some preEntry ∧
        storage_created_or_destroyed preEntry.value sp.value = true := by
  intro posts
  induction posts with
  | nil =>
    intro us hok u
    simp only [collectInterestingUpdates] at hok
    injection hok with h
    subst h
    simp
  | cons pr rest ih =>
    intro us hok u
    rw [collectInterestingUpdates] at hok
    obtain ⟨us1, hacc⟩ :
        ∃ v, collectUpdatesAccount pre pr.1 pr.2.storage_proof = .ok v := by
      cases hf : collectUpdatesAccount pre pr.1 pr.2.storage_proof with
      | error e => rw [hf] at hok; cases hok
      | ok v => exact ⟨v, rfl⟩
    rw [hacc] at hok
    simp only at hok
    obtain ⟨us2, hrec⟩ : ∃ v, collectInterestingUpdates pre rest = .ok v := by
      cases hf : collectInterestingUpdates pre rest with
      | error e => rw [hf] at hok; cases hok
      | ok v => exact ⟨v, rfl⟩
    rw [hrec] at hok
    injection hok with h
    subst h
    constructor
    · intro hu
      rcases List.mem_append.mp hu with h1 | h1
      · obtain ⟨sp, hsp, hrest⟩ :=
          (collectUpdatesAccount_mem pre pr.1 pr.2.storage_proof us1 hacc u).mp h1
        exact ⟨pr, List.mem_cons_self _ _, sp, hsp, hrest⟩
      · obtain ⟨pr2, hpr2, hrest⟩ := (ih us2 hrec u).mp h1
        exact ⟨pr2, List.mem_cons_of_mem _ hpr2, hrest⟩
    · rintro ⟨pr2, hpr2, sp, hsp, hrest⟩
      rcases List.mem_cons.mp hpr2 with h2 | h2
      · subst h2
        exact List.mem_append.mpr (Or.inl
          ((collectUpdatesAccount_mem pre pr2.1 pr2.2.storage_proof us1 hacc u).mpr
            ⟨sp, hsp, hrest⟩))
      · exact List.mem_append.mpr (Or.inr ((ih us2 hrec u).mpr ⟨pr2, h2, sp, hsp, hrest⟩))

/-- C9: a storage update is selected for oracle-construction replay exactly
when exactly one of the pre- and post-state values is zero (an
exclusion-inclusion transition), and the selected updates are replayed in
nondecreasing storage-key order: the list handed to the replay loop is
sorted by key and is a permutation of the selected updates. -/
theorem claim_C9_oracle_selection :
    (∀ a b : Nat, storage_created_or_destroyed a b = true ↔ Xor' (a = 0) (b = 0))
    ∧ (∀ pre post us, interesting_updates_sorted pre post = .ok us →
        us.Sorted keyLe
        ∧ ∃ us0, collectInterestingUpdates pre post.proofs = .ok us0
            ∧ us.Perm us0
            ∧ (∀ u, u ∈ us0 ↔ ∃ pr ∈ post.proofs, ∃ sp ∈ pr.2.storage_proof,
                u = { address := pr.1, key := sp.key, value := sp.value } ∧
                ∃ accPre, pre.proofs.find? (fun x => decide (x.1 = pr.1)) = some accPre ∧
                ∃ preEntry, accPre.2.storage_proof.find?
                    (fun x => decide (x.key = sp.key)) = some preEntry ∧
                  storage_created_or_destroyed preEntry.value sp.value = true)) := by
  constructor
  · intro a b
    unfold storage_created_or_destroyed
    by_cases ha : a = 0 <;> by_cases hb : b = 0 <;> simp [ha, hb, Xor']
  · intro pre post us hok
    unfold interesting_updates_sorted at hok
    cases hcol : collectInterestingUpdates pre post.proofs with
    | error e => rw [hcol] at hok; cases hok
    | ok us0 =>
      rw [hcol] at hok
      injection hok with h
      subst h
      refine ⟨List.sorted_insertionSort keyLe us0, us0, rfl,
        List.perm_insertionSort keyLe us0, ?_⟩
      exact collectInterestingUpdates_mem pre post.proofs us0 hcol

/-- Fixture: the account used by the C9 witness, with a parametric value at
storage key 1 and value three at storage key 2. -/
def accW (v1 : Nat) : EIP1186ProofResponse :=
  { address := [7], balance := 0, code_hash := [], nonce := 0, storage_hash := [],
    account_proof := [],
    storage_proof := [{ key := [1], value := v1, proof := [] },
                      { key := [2], value := 3, proof := [] }] }

/-- Fixture: pre-state proofs for the C9 witness (key 1 holds zero). -/
def preW : BlockProofs := { proofs := [([7], accW 0)] }

/-- Fixture: post-state proofs for the C9 witness (key 1 becomes five, an
exclusion-to-inclusion transition; key 2 keeps its value). -/
def postW : BlockProofs := { proofs := [([7], accW 5)] }

/-- C9 witness: the transition test on 0 and 5, and the sortedness of the
selected update list of the concrete fixture. -/
theorem claim_C9_oracle_selection_witness :
    storage_created_or_destroyed 0 5 = true
    ∧ ∃ us, interesting_updates_sorted preW postW = .ok us ∧ us.Sorted keyLe := by
  refine ⟨(claim_C9_oracle_selection.1 0 5).mpr (Or.inl ⟨rfl, by decide⟩), ?_⟩
  refine ⟨sortUpdatesByKey [{ address := [7], key := [1], value := 5 }], by rfl, ?_⟩
  exact (claim_C9_oracle_selection.2 preW postW _ (by rfl)).1

/-! ## Transferable parcel (transferrable.rs, state.rs; claims C7 and C8) -/

/-- TransferrableError from transferrable.rs (the variants of the encoder
path; U16Overflow models the usize_to_u16 failure of the utils module). -/
inductive TransferrableError
  | NoIndexForNode
  | U16Overflow
deriving DecidableEq, Repr

/-- HashSet insertion, modelled as a duplicate-free list in first-insertion
order (the iteration order of the Rust HashSet is unspecified; only
distinctness is claimed below). -/
def setInsert (s : List Bytes) (x : Bytes) : List Bytes :=
  if x ∈ s then s else s ++ [x]

/-- TrieNodesSet from transferrable.rs: the deduplicated account and storage
node collections of a block. -/
structure TrieNodesSet where
  account : List Bytes
  storage : List Bytes
deriving DecidableEq, Repr

/-- get_trie_node_set from transferrable.rs: walk every proof and collect
account and storage trie nodes into two deduplicated collections. -/
def get_trie_node_set (proofs : List (Bytes × EIP1186ProofResponse)) : TrieNodesSet :=
  { account := proofs.foldl (fun acc pr => pr.2.account_proof.foldl setInsert acc) [],
    storage := proofs.foldl (fun acc pr =>
      pr.2.storage_proof.foldl (fun acc2 sp => sp.proof.foldl setInsert acc2) acc) [] }

/-- Index of a node in the deduplicated list (the node_bytes to index map of
get_node_map). -/
def indexOfNode : List Bytes → Bytes → Option Nat
  | [], _ => none
  | x :: rest, n => if x = n then some 0 else (indexOfNode rest n).map (· + 1)

/-- nodes_to_node_indices from transferrable.rs: replace every node of a
proof by its u16 index into the deduplicated list, failing on a missing
node or an index that does not fit u16. -/
def nodes_to_node_indices (proof : List Bytes) (s : List Bytes) :
    Except TransferrableError (List Nat) :=
  match proof with
  | [] => .ok []
  | n :: rest =>
    match indexOfNode s n with
    | none => .error .NoIndexForNode
    | some i =>
      if i < 65536 then
        match nodes_to_node_indices rest s with
        | .error e => .error e
        | .ok is2 => .ok (i :: is2)
      else .error .U16Overflow

/-- RecentBlockHash from crates/types/src/state.rs: a block number and hash
pair for the BLOCKHASH opcode. -/
structure RecentBlockHash where
  block_number : Nat
  block_hash : Bytes
deriving DecidableEq, Repr

/-- CompactStorageProof from crates/types/src/state.rs. -/
structure CompactStorageProof where
  key : Bytes
  value : Nat
  proof : List Nat
deriving DecidableEq, Repr

/-- CompactEip1186Proof from crates/types/src/state.rs. -/
structure CompactEip1186Proof where
  address : Bytes
  balance : Nat
  code_hash : Bytes
  nonce : Nat
  storage_hash : Bytes
  account_proof : List Nat
  storage_proofs : List CompactStorageProof
deriving DecidableEq, Repr

/-- RequiredBlockState from crates/types/src/state.rs: the five-component
transferable parcel. -/
structure RequiredBlockState where
  compact_eip1186_proofs : List CompactEip1186Proof
  contracts : List Bytes
  account_nodes : List Bytes
  storage_nodes : List Bytes
  blockhashes : List RecentBlockHash
deriving DecidableEq, Repr

/-- The storage-proof half of the index substitution (the inner loop of
get_slim_eip1186_proofs in transferrable.rs). -/
def get_compact_storage_proofs (s : List Bytes) :
    List StorageProofEntry → Except TransferrableError (List CompactStorageProof)
  | [] => .ok []
  | sp :: rest =>
    match nodes_to_node_indices sp.proof s with
    | .error e => .error e
    | .ok storageIndices =>
      match get_compact_storage_proofs s rest with
      | .error e => .error e
      | .ok others =>
        .ok ({ key := sp.key, value := sp.value, proof := storageIndices } :: others)

/-- The index substitution over all proofs (get_slim_eip1186_proofs in
transferrable.rs, yielding the compact proofs of state.rs). -/
def get_compact_eip1186_proofs (nodeSet : TrieNodesSet) :
    List (Bytes × EIP1186ProofResponse) →
    Except TransferrableError (List CompactEip1186Proof)
  | [] => .ok []
  | pr :: rest =>
    match nodes_to_node_indices pr.2.account_proof nodeSet.account with
    | .error e => .error e
    | .ok accountIndices =>
      match get_compact_storage_proofs nodeSet.storage pr.2.storage_proof with
      | .error e => .error e
      | .ok storageProofs =>
        match get_compact_eip1186_proofs nodeSet rest with
        | .error e => .error e
        | .ok others =>
          .ok ({ address := pr.2.address, balance := pr.2.balance,
                 code_hash := pr.2.code_hash, nonce := pr.2.nonce,
                 storage_hash := pr.2.storage_hash,
                 account_proof := accountIndices,
                 storage_proofs := storageProofs } :: others)

/-- Modelled from the spec: RequiredBlockState::create.  The current encoder
called by cache.rs (create_transferrable_proof) is not among the excerpted
sources; per spec sections 3 and 4.G, and following the structure of the
earlier SlimBlockStateProof::create of transferrable.rs, it deduplicates
the trie nodes of all proofs, substitutes node lists by u16 indices,
carries the deduplicated contract byte-strings, and carries the blockhash
list of block_number and block_hash pairs observed via the BLOCKHASH
opcode. -/
def RequiredBlockState.create (block_proofs : BlockProofs)
    (contracts : List Bytes) (blockhashes : List (Nat × Bytes)) :
    Except TransferrableError RequiredBlockState :=
  let nodeSet := get_trie_node_set block_proofs.proofs
  match get_compact_eip1186_proofs nodeSet block_proofs.proofs with
  | .error e => .error e
  | .ok compacts =>
    .ok { compact_eip1186_proofs := compacts,
          contracts := contracts,
          account_nodes := nodeSet.account,
          storage_nodes := nodeSet.storage,
          blockhashes := blockhashes.map
            (fun p => { block_number := p.1, block_hash := p.2 }) }

/-- C8: every parcel the encoder builds carries the five schema components;
in particular the blockhashes component is exactly the list of
{block_number, block_hash} pairs handed to the encoder (the BLOCKHASH
observations), next to the compact proofs, contracts and the two
deduplicated node lists. -/
theorem claim_C8_blockhashes (bp : BlockProofs) (contracts : List Bytes)
    (blockhashes : List (Nat × Bytes)) (parcel : RequiredBlockState)
    (hok : RequiredBlockState.create bp contracts blockhashes = .ok parcel) :
    parcel.blockhashes = blockhashes.map
      (fun p => { block_number := p.1, block_hash := p.2 })
    ∧ parcel.contracts = contracts
    ∧ parcel.account_nodes = (get_trie_node_set bp.proofs).account
    ∧ parcel.storage_nodes = (get_trie_node_set bp.proofs).storage
    ∧ get_compact_eip1186_proofs (get_trie_node_set bp.proofs) bp.proofs =
        .ok parcel.compact_eip1186_proofs := by
  unfold RequiredBlockState.create at hok
  simp only at hok
  cases hc : get_compact_eip1186_proofs (get_trie_node_set bp.proofs) bp.proofs with
  | error e => rw [hc] at hok; cases hok
  | ok compacts =>
    rw [hc] at hok
    injection hok with h
    subst h
    exact ⟨rfl, rfl, rfl, rfl, rfl⟩

/-- C8 witness: the encoder applied to the concrete post-state fixture with
one contract and one blockhash pair. -/
theorem claim_C8_blockhashes_witness :
    ∃ parcel, RequiredBlockState.create postW [[9]] [(3, [4])] = .ok parcel ∧
      parcel.blockhashes = [{ block_number := 3, block_hash := [4] }] := by
  obtain ⟨h1, h2⟩ := claim_C8_blockhashes postW [[9]] [(3, [4])]
    { compact_eip1186_proofs :=
        [{ address := [7], balance := 0, code_hash := [], nonce := 0,
           storage_hash := [], account_proof := [], storage_proofs :=
             [{ key := [1], value := 5, proof := [] },
              { key := [2], value := 3, proof := [] }] }],
      contracts := [[9]], account_nodes := [], storage_nodes := [],
      blockhashes := [{ block_number := 3, block_hash := [4] }] } (by rfl)
  exact ⟨_, by rfl, h1⟩

/-! ## Parcel wire codec (claim C7)

Modelled from the spec: to_ssz_bytes and from_ssz_bytes of state.rs delegate
to the external ssz_rs crate, which is not part of this repository.  The
wire contract the spec states (sections 3, 4.G, 6 and 9) is modelled here:
strictly ordered fields, each node-list entry a length-prefixed byte-string,
u16 indices little-endian, other integers big-endian fixed-width (u64 eight
bytes, u256 thirty-two bytes), addresses twenty bytes, hashes thirty-two
bytes, lists count-prefixed. -/

/-- Modelled from the spec: fixed-width big-endian bytes of a Nat (w bytes,
value taken mod 256^w). -/
def beFixed : Nat → Nat → Bytes
  | 0, _ => []
  | w + 1, n => beFixed w (n / 256) ++ [n % 256]

/-- Modelled from the spec: little-endian u16 bytes. -/
def leU16 (n : Nat) : Bytes := [n % 256, n / 256 % 256]

/-- Modelled from the spec: length-prefixed byte-string. -/
def encBytesF (b : Bytes) : Bytes := beFixed 8 b.length ++ b

/-- Modelled from the spec: count-prefixed list of encoded items. -/
def encListF {α : Type} (enc : α → Bytes) (l : List α) : Bytes :=
  beFixed 8 l.length ++ (l.map enc).flatten

/-- Modelled from the spec: decode a fixed-width big-endian integer. -/
def decFixed (w : Nat) (b : Bytes) : Option (Nat × Bytes) :=
  if w ≤ b.length then some (beVal (b.take w), b.drop w) else none

/-- Modelled from the spec: decode a fixed-width raw byte field. -/
def decFixedBytes (w : Nat) (b : Bytes) : Option (Bytes × Bytes) :=
  if w ≤ b.length then some (b.take w, b.drop w) else none

/-- Modelled from the spec: decode a little-endian u16. -/
def decU16 : Bytes → Option (Nat × Bytes)
  | b0 :: b1 :: rest => some (b0 + b1 * 256, rest)
  | _ => none

/-- Modelled from the spec: decode a length-prefixed byte-string. -/
def decBytesF (b : Bytes) : Option (Bytes × Bytes) :=
  match decFixed 8 b with
  | none => none
  | some (len, rest) =>
    if len ≤ rest.length then some (rest.take len, rest.drop len) else none

/-- Modelled from the spec: decode a fixed number of consecutive items. -/
def decListAux {α : Type} (dec : Bytes → Option (α × Bytes)) :
    Nat → Bytes → Option (List α × Bytes)
  | 0, b => some ([], b)
  | n + 1, b =>
    match dec b with
    | none => none
    | some (x, rest) =>
      match decListAux dec n rest with
      | none => none
      | some (xs, rest2) => some (x :: xs, rest2)

/-- Modelled from the spec: decode a count-prefixed list. -/
def decListF {α : Type} (dec : Bytes → Option (α × Bytes)) (b : Bytes) :
    Option (List α × Bytes) :=
  match decFixed 8 b with
  | none => none
  | some (n, rest) => decListAux dec n rest

/-- Modelled from the spec: encode a blockhash pair, u64 number then
32-byte hash. -/
def encRecentBlockHash (r : RecentBlockHash) : Bytes :=
  beFixed 8 r.block_number ++ r.block_hash

/-- Modelled from the spec: decode a blockhash pair. -/
def decRecentBlockHash (b : Bytes) : Option (RecentBlockHash × Bytes) :=
  match decFixed 8 b with
  | none => none
  | some (n, rest) =>
    match decFixedBytes 32 rest with
    | none => none
    | some (h, rest2) => some ({ block_number := n, block_hash := h }, rest2)

/-- Modelled from the spec: encode a compact storage proof, 32-byte key then
u256 value then u16 index list. -/
def encCompactStorageProof (p : CompactStorageProof) : Bytes :=
  p.key ++ beFixed 32 p.value ++ encListF leU16 p.proof

/-- Modelled from the spec: decode a compact storage proof. -/
def decCompactStorageProof (b : Bytes) : Option (CompactStorageProof × Bytes) :=
  match decFixedBytes 32 b with
  | none => none
  | some (key, r1) =>
    match decFixed 32 r1 with
    | none => none
    | some (value, r2) =>
      match decListF decU16 r2 with
      | none => none
      | some (proof, r3) => some ({ key := key, value := value, proof := proof }, r3)

/-- Modelled from the spec: encode a compact account proof, 20-byte address,
u256 balance, 32-byte code hash, u64 nonce, 32-byte storage hash, u16
account-proof indices, storage proofs. -/
def encCompactEip1186Proof (p : CompactEip1186Proof) : Bytes :=
  p.address ++ beFixed 32 p.balance ++ p.code_hash ++ beFixed 8 p.nonce ++
    p.storage_hash ++ encListF leU16 p.account_proof ++
    encListF encCompactStorageProof p.storage_proofs

/-- Modelled from the spec: decode a compact account proof. -/
def decCompactEip1186Proof (b : Bytes) : Option (CompactEip1186Proof × Bytes) :=
  match decFixedBytes 20 b with
  | none => none
  | some (address, r1) =>
    match decFixed 32 r1 with
    | none => none
    | some (balance, r2) =>
      match decFixedBytes 32 r2 with
      | none => none
      | some (code_hash, r3) =>
        match decFixed 8 r3 with
        | none => none
        | some (nonce, r4) =>
          match decFixedBytes 32 r4 with
          | none => none
          | some (storage_hash, r5) =>
            match decListF decU16 r5 with
            | none => none
            | some (account_proof, r6) =>
              match decListF decCompactStorageProof r6 with
              | none => none
              | some (storage_proofs, r7) =>
                some ({ address := address, balance := balance,
                        code_hash := code_hash, nonce := nonce,
                        storage_hash := storage_hash,
                        account_proof := account_proof,
                        storage_proofs := storage_proofs }, r7)

/-- Modelled from the spec: RequiredBlockState::to_ssz_bytes of state.rs
(ssz_rs delegate), the five components in schema order. -/
def RequiredBlockState.to_ssz_bytes (s : RequiredBlockState) : Bytes :=
  encListF encCompactEip1186Proof s.compact_eip1186_proofs ++
    encListF encBytesF s.contracts ++
    encListF encBytesF s.account_nodes ++
    encListF encBytesF s.storage_nodes ++
    encListF encRecentBlockHash s.blockhashes

/-- Modelled from the spec: RequiredBlockState::from_ssz_bytes of state.rs
(ssz_rs delegate). -/
def RequiredBlockState.from_ssz_bytes (b : Bytes) : Option RequiredBlockState :=
  match decListF decCompactEip1186Proof b with
  | none => none
  | some (proofs, r1) =>
    match decListF decBytesF r1 with
    | none => none
    | some (contracts, r2) =>
      match decListF decBytesF r2 with
      | none => none
      | some (account_nodes, r3) =>
        match decListF decBytesF r3 with
        | none => none
        | some (storage_nodes, r4) =>
          match decListF decRecentBlockHash r4 with
          | none => none
          | some (blockhashes, r5) =>
            if r5.isEmpty then
              some { compact_eip1186_proofs := proofs, contracts := contracts,
                     account_nodes := account_nodes, storage_nodes := storage_nodes,
                     blockhashes := blockhashes }
            else none

/-- Well-formed blockhash pair: number fits u64, hash is 32 bytes. -/
def RecentBlockHash.wfP (r : RecentBlockHash) : Prop :=
  r.block_number < 2 ^ 64 ∧ r.block_hash.length = 32

/-- Well-formed compact storage proof: 32-byte key, u256 value, u16 indices,
list length fits the u64 count. -/
def CompactStorageProof.wfP (p : CompactStorageProof) : Prop :=
  p.key.length = 32 ∧ p.value < 2 ^ 256 ∧ p.proof.length < 2 ^ 64 ∧
    ∀ i ∈ p.proof, i < 65536

/-- Well-formed compact account proof. -/
def CompactEip1186Proof.wfP (p : CompactEip1186Proof) : Prop :=
  p.address.length = 20 ∧ p.balance < 2 ^ 256 ∧ p.code_hash.length = 32 ∧
    p.nonce < 2 ^ 64 ∧ p.storage_hash.length = 32 ∧
    p.account_proof.length < 2 ^ 64 ∧ (∀ i ∈ p.account_proof, i < 65536) ∧
    p.storage_proofs.length < 2 ^ 64 ∧ ∀ q ∈ p.storage_proofs, q.wfP

/-- Well-formed parcel: every list fits its u64 count and every component is
well formed. -/
def RequiredBlockState.wfP (s : RequiredBlockState) : Prop :=
  s.compact_eip1186_proofs.length < 2 ^ 64 ∧
    (∀ p ∈ s.compact_eip1186_proofs, p.wfP) ∧
    s.contracts.length < 2 ^ 64 ∧ (∀ c ∈ s.contracts, c.length < 2 ^ 64) ∧
    s.account_nodes.length < 2 ^ 64 ∧ (∀ c ∈ s.account_nodes, c.length < 2 ^ 64) ∧
    s.storage_nodes.length < 2 ^ 64 ∧ (∀ c ∈ s.storage_nodes, c.length < 2 ^ 64) ∧
    s.blockhashes.length < 2 ^ 64 ∧ ∀ r ∈ s.blockhashes, r.wfP

theorem beFixed_length (w : Nat) : ∀ n, (beFixed w n).length = w := by
  induction w with
  | zero => intro n; rfl
  | succ v ih => intro n; simp [beFixed, ih]

theorem beVal_append_singleton (xs : Bytes) (d : Nat) :
    beVal (xs ++ [d]) = beVal xs * 256 + d := by
  unfold beVal
  rw [List.foldl_append]
  rfl

theorem beVal_beFixed (w : Nat) : ∀ n, n < 256 ^ w → beVal (beFixed w n) = n := by
  induction w with
  | zero =>
    intro n h
    have hn : n = 0 := by simpa using h
    subst hn
    rfl
  | succ v ih =>
    intro n h
    rw [beFixed, beVal_append_singleton, ih (n / 256) ?hlt]
    · omega
    case hlt =>
      have h2 : n < 256 * 256 ^ v := by
        rw [← pow_succ']
        exact h
      exact Nat.div_lt_of_lt_mul h2

theorem decFixed_append (w : Nat) (xs r : Bytes) (hlen : xs.length = w) :
    decFixed w (xs ++ r) = some (beVal xs, r) := by
  subst hlen
  unfold decFixed
  rw [if_pos (by simp), List.take_left, List.drop_left]

theorem decFixed_enc (w n : Nat) (h : n < 256 ^ w) (r : Bytes) :
    decFixed w (beFixed w n ++ r) = some (n, r) := by
  rw [decFixed_append w (beFixed w n) r (beFixed_length w n), beVal_beFixed w n h]

theorem decFixedBytes_append (w : Nat) (xs r : Bytes) (hlen : xs.length = w) :
    decFixedBytes w (xs ++ r) = some (xs, r) := by
  subst hlen
  unfold decFixedBytes
  rw [if_pos (by simp), List.take_left, List.drop_left]

theorem decU16_enc (n : Nat) (h : n < 65536) (r : Bytes) :
    decU16 (leU16 n ++ r) = some (n, r) := by
  show some (n % 256 + n / 256 % 256 * 256, r) = some (n, r)
  have hval : n % 256 + n / 256 % 256 * 256 = n := by omega
  rw [hval]

theorem decBytesF_enc (b : Bytes) (h : b.length < 2 ^ 64) (r : Bytes) :
    decBytesF (encBytesF b ++ r) = some (b, r) := by
  unfold encBytesF decBytesF
  rw [List.append_assoc]
  rw [decFixed_enc 8 b.length (by norm_num at h ⊢; omega) (b ++ r)]
  simp only
  rw [if_pos (by simp), List.take_left, List.drop_left]

theorem decListAux_enc {α : Type} (dec : Bytes → Option (α × Bytes)) (enc : α → Bytes) :
    ∀ (l : List α), (∀ x ∈ l, ∀ r2, dec (enc x ++ r2) = some (x, r2)) →
    ∀ r, decListAux dec l.length ((l.map enc).flatten ++ r) = some (l, r) := by
  intro l
  induction l with
  | nil =>
    intro _ r
    simp [decListAux]
  | cons x xs ih =>
    intro helem r
    have hx := helem x (List.mem_cons_self x xs)
    simp only [List.map_cons, List.flatten_cons, List.length_cons]
    rw [List.append_assoc, decListAux]
    rw [hx ((xs.map enc).flatten ++ r)]
    simp only
    rw [ih (fun y hy => helem y (List.mem_cons_of_mem x hy)) r]

theorem decListF_enc {α : Type} (dec : Bytes → Option (α × Bytes)) (enc : α → Bytes)
    (l : List α) (hlen : l.length < 2 ^ 64)
    (helem : ∀ x ∈ l, ∀ r2, dec (enc x ++ r2) = some (x, r2)) (r : Bytes) :
    decListF dec (encListF enc l ++ r) = some (l, r) := by
  unfold encListF decListF
  rw [List.append_assoc]
  rw [decFixed_enc 8 l.length (by norm_num at hlen ⊢; omega) ((l.map enc).flatten ++ r)]
  simp only
  exact decListAux_enc dec enc l helem r

theorem decRecentBlockHash_enc (x : RecentBlockHash) (hw : x.wfP) (r : Bytes) :
    decRecentBlockHash (encRecentBlockHash x ++ r) = some (x, r) := by
  unfold encRecentBlockHash decRecentBlockHash
  rw [List.append_assoc]
  rw [decFixed_enc 8 x.block_number (by have := hw.1; norm_num at this ⊢; omega) _]
  simp only
  rw [decFixedBytes_append 32 x.block_hash r hw.2]

theorem decCompactStorageProof_enc (x : CompactStorageProof) (hw : x.wfP) (r : Bytes) :
    decCompactStorageProof (encCompactStorageProof x ++ r) = some (x, r) := by
  obtain ⟨hkey, hval, hlen, hidx⟩ := hw
  unfold encCompactStorageProof decCompactStorageProof
  rw [List.append_assoc, List.append_assoc]
  rw [decFixedBytes_append 32 x.key _ hkey]
  simp only
  rw [decFixed_enc 32 x.value (by norm_num at hval ⊢; omega) _]
  simp only
  rw [decListF_enc decU16 leU16 x.proof hlen (fun i hi r2 => decU16_enc i (hidx i hi) r2) r]

theorem decCompactEip1186Proof_enc (x : CompactEip1186Proof) (hw : x.wfP) (r : Bytes) :
    decCompactEip1186Proof (encCompactEip1186Proof x ++ r) = some (x, r) := by
  obtain ⟨haddr, hbal, hch, hnonce, hsh, halen, haidx, hslen, hsp⟩ := hw
  unfold encCompactEip1186Proof decCompactEip1186Proof
  rw [List.append_assoc, List.append_assoc, List.append_assoc, List.append_assoc,
    List.append_assoc, List.append_assoc]
  rw [decFixedBytes_append 20 x.address _ haddr]
  simp only
  rw [decFixed_enc 32 x.balance (by norm_num at hbal ⊢; omega) _]
  simp only
  rw [decFixedBytes_append 32 x.code_hash _ hch]
  simp only
  rw [decFixed_enc 8 x.nonce (by norm_num at hnonce ⊢; omega) _]
  simp only
  rw [decFixedBytes_append 32 x.storage_hash _ hsh]
  simp only
  rw [decListF_enc decU16 leU16 x.account_proof halen
    (fun i hi r2 => decU16_enc i (haidx i hi) r2) _]
  simp only
  rw [decListF_enc decCompactStorageProof encCompactStorageProof x.storage_proofs hslen
    (fun q hq r2 => decCompactStorageProof_enc q (hsp q hq) r2) r]

/-- Dedup: setInsert keeps the collection duplicate-free. -/
theorem setInsert_nodup {s : List Bytes} (h : s.Nodup) (x : Bytes) :
    (setInsert s x).Nodup := by
  unfold setInsert
  split
  · exact h
  · rename_i hmem
    simp [List.nodup_append, h, hmem]

/-- Dedup: folding setInsert over any list keeps the collection
duplicate-free. -/
theorem foldl_preserves_nodup {α : Type} (f : List Bytes → α → List Bytes)
    (hf : ∀ s a, s.Nodup → (f s a).Nodup) :
    ∀ (l : List α) (s : List Bytes), s.Nodup → (l.foldl f s).Nodup := by
  intro l
  induction l with
  | nil => intro s hs; exact hs
  | cons x rest ih => intro s hs; exact ih (f s x) (hf s x hs)

/-- Dedup: both node collections of get_trie_node_set are duplicate-free. -/
theorem get_trie_node_set_nodup (proofs : List (Bytes × EIP1186ProofResponse)) :
    (get_trie_node_set proofs).account.Nodup ∧ (get_trie_node_set proofs).storage.Nodup := by
  constructor
  · exact foldl_preserves_nodup _
      (fun s pr hs => foldl_preserves_nodup setInsert
        (fun s2 a hs2 => setInsert_nodup hs2 a) pr.2.account_proof s hs)
      proofs [] List.nodup_nil
  · exact foldl_preserves_nodup _
      (fun s pr hs => foldl_preserves_nodup _
        (fun s2 sp hs2 => foldl_preserves_nodup setInsert
          (fun s3 a hs3 => setInsert_nodup hs3 a) sp.proof s2 hs2)
        pr.2.storage_proof s hs)
      proofs [] List.nodup_nil

/-- C7: decoding an encoded parcel restores it (the compression layer of
to_ssz_snappy_bytes excluded, as in to_ssz_bytes and from_ssz_bytes of
state.rs), and every parcel built by the encoder has duplicate-free
account_nodes and storage_nodes lists. -/
theorem claim_C7_codec_identity :
    (∀ s : RequiredBlockState, s.wfP →
        RequiredBlockState.from_ssz_bytes s.to_ssz_bytes = some s)
    ∧ (∀ bp contracts blockhashes parcel,
        RequiredBlockState.create bp contracts blockhashes = .ok parcel →
        parcel.account_nodes.Nodup ∧ parcel.storage_nodes.Nodup) := by
  constructor
  · intro s hw
    obtain ⟨h1, h2, h3, h4, h5, h6, h7, h8, h9, h10⟩ := hw
    unfold RequiredBlockState.to_ssz_bytes RequiredBlockState.from_ssz_bytes
    rw [List.append_assoc, List.append_assoc, List.append_assoc]
    rw [show encListF encRecentBlockHash s.blockhashes =
      encListF encRecentBlockHash s.blockhashes ++ [] from (List.append_nil _).symm]
    rw [decListF_enc decCompactEip1186Proof encCompactEip1186Proof
      s.compact_eip1186_proofs h1 (fun p hp r2 => decCompactEip1186Proof_enc p (h2 p hp) r2) _]
    simp only
    rw [decListF_enc decBytesF encBytesF s.contracts h3
      (fun c hc r2 => decBytesF_enc c (h4 c hc) r2) _]
    simp only
    rw [decListF_enc decBytesF encBytesF s.account_nodes h5
      (fun c hc r2 => decBytesF_enc c (h6 c hc) r2) _]
    simp only
    rw [decListF_enc decBytesF encBytesF s.storage_nodes h7
      (fun c hc r2 => decBytesF_enc c (h8 c hc) r2) _]
    simp only
    rw [decListF_enc decRecentBlockHash encRecentBlockHash s.blockhashes h9
      (fun b hb r2 => decRecentBlockHash_enc b (h10 b hb) r2) []]
    rfl
  · intro bp contracts blockhashes parcel hok
    unfold RequiredBlockState.create at hok
    simp only at hok
    cases hc : get_compact_eip1186_proofs (get_trie_node_set bp.proofs) bp.proofs with
    | error e => rw [hc] at hok; cases hok
    | ok compacts =>
      rw [hc] at hok
      injection hok with h
      subst h
      exact get_trie_node_set_nodup bp.proofs

/-- Concrete block hash record for the C7 witness. -/
def rbhW : RecentBlockHash := { block_number := 3, block_hash := List.replicate 32 0 }

/-- Concrete small parcel for the C7 witness. -/
def parcelW : RequiredBlockState :=
  { compact_eip1186_proofs := [], contracts := [[9]], account_nodes := [[1]],
    storage_nodes := [], blockhashes := [rbhW] }

/-- C7 witness: round trip of a concrete small parcel and distinctness of
the node lists of a concretely encoded parcel. -/
theorem claim_C7_codec_identity_witness :
    RequiredBlockState.from_ssz_bytes (RequiredBlockState.to_ssz_bytes parcelW) =
      some parcelW
    ∧ ∀ parcel, RequiredBlockState.create postW [[9]] [(3, [4])] = .ok parcel →
        parcel.account_nodes.Nodup := by
  constructor
  · refine claim_C7_codec_identity.1 parcelW
      ⟨by decide, ?_, by decide, ?_, by decide, ?_, by decide, ?_, by decide, ?_⟩
    · intro p hp
      simp [parcelW] at hp
    · intro c hc
      simp [parcelW] at hc
      subst hc
      decide
    · intro c hc
      simp [parcelW] at hc
      subst hc
      decide
    · intro c hc
      simp [parcelW] at hc
    · intro r hr
      simp [parcelW] at hr
      subst hr
      exact ⟨by decide, by decide⟩
  · intro parcel hok
    exact (claim_C7_codec_identity.2 postW [[9]] [(3, [4])] parcel hok).1

end Archors

